import Mathlib

/-!
Verification of the octopus variant-caller statistical core.

Shallow embedding of the parts of the source relevant to the frozen claims:

* `detail::extend_tree_until` (haplotype_tree.hpp)
* `run_variational_bayes_helper` (tumour_model.cpp)
* `FixedPloidyGenotypeLikelihoodModel` (fixed_ploidy_genotype_likelihood_model.cpp)
* the coalescent prior (coalescent_model.cpp)
* tumour-model seed generation (tumour_model.cpp)
* `SingleReadModel::log_probability` (single_read_model.cpp)
* `HaplotypeLikelihoodCache` (haplotype_likelihood_cache.cpp)
* `Phaser::force_phase` (phaser.cpp)

Floating point doubles are modelled as real numbers; memoisation caches are
modelled by the pure functions they memoise.  Code of the repository whose
definition is not available (only declarations or callers) is modelled from
the specification and marked `Modelled from the spec:` in its doc comment.
-/

namespace Octopus

/-! ## Haplotype tree: `detail::extend_tree_until` (haplotype_tree.hpp, lines 148-163)

The C++ is a template over the tree (via `tree.extend` / `tree.num_haplotypes`)
and the allele iterator.  We embed it generically over an `extend` function and
a `num` (number of haplotypes) observer, consuming a list of alleles and
returning the final tree together with the suffix of unconsumed alleles
(the returned iterator). -/

/-- `detail::extend_tree_until`: the `std::find_if` loop extends the tree with
each allele in turn and stops as soon as `num_haplotypes() >= max_haplotypes`
holds after the extension; afterwards the function returns `std::next(it)`
when the count equals `max_haplotypes` exactly, else `it` itself. -/
def extendTreeUntil {T A : Type} (extend : T → A → T) (num : T → ℕ)
    (maxHaplotypes : ℕ) : T → List A → T × List A
  | tree, [] => (tree, [])
  | tree, a :: rest =>
    let t := extend tree a
    if num t ≥ maxHaplotypes then
      if num t = maxHaplotypes then (t, rest) else (t, a :: rest)
    else extendTreeUntil extend num maxHaplotypes t rest

/-- Modelled from the spec: `HaplotypeTree::extend` (haplotype_tree.cpp is not
in the sources; only the header is).  Per spec §4.1, for each leaf the allele
is attached as a new child of the deepest compatible ancestor and, for a
heterozygous extension, the original branch is also kept, so the frontier
grows to include both "with a" and "without a" paths.  We model the tree as
its frontier: a list of branches, each branch the list of alleles (with
half-open contig intervals) along a root-to-leaf path.  An allele beginning
at or after the branch end spawns the extended branch and keeps the original;
otherwise the branch is left unchanged (the skip case). -/
def SpecTree.extend (tree : List (List (ℕ × ℕ))) (a : ℕ × ℕ) :
    List (List (ℕ × ℕ)) :=
  tree.flatMap fun b =>
    if (b.map Prod.snd).foldr max 0 ≤ a.1 then [b, b ++ [a]] else [b]

/-- Number of haplotypes of the spec-modelled tree: the frontier size. -/
def SpecTree.num (tree : List (List (ℕ × ℕ))) : ℕ := tree.length

/-- C2, counterexample.  The claim says an `extend` that would push
`num_haplotypes()` above `max_haplotypes` is not applied to the tree.  In the
code the `find_if` lambda calls `tree.extend(allele)` first and only then
tests the bound, so the overshooting extension has already happened.  Starting
from the one-leaf tree, extending with the allele `(0,1)` gives 2 haplotypes
(< 3, continue) and the allele `(2,3)` then doubles the frontier to 4 > 3:
the returned tree holds 4 haplotypes, above the ceiling of 3. -/
theorem extendTreeUntil_exceeds_bound :
    SpecTree.num (extendTreeUntil SpecTree.extend SpecTree.num 3
      [[]] [(0, 1), (2, 3)]).1 = 4 ∧ ¬ (4 ≤ 3) := by
  exact ⟨rfl, by decide⟩

/-- C2, amended.  Starting from a tree below the bound, `extend_tree_until`
applies `extend` for each allele in turn and checks the bound only after each
extension; it stops at the first allele whose extension reaches
`num_haplotypes() ≥ max_haplotypes`.  Writing `k` for the number of alleles
applied to the tree: every proper prefix of the applied alleles leaves the
count below the bound; if the final count equals the bound exactly the
stopping allele is consumed (the iterator past it is returned); if the count
overshoots the bound the stopping allele has nevertheless been applied to the
tree and the iterator at it is returned; and if the alleles run out below the
bound everything is consumed.  In particular the returned tree can exceed
`max_haplotypes`: the overshooting extension is applied, only the iterator is
not advanced past it. -/
theorem extendTreeUntil_characterisation {T A : Type}
    (extend : T → A → T) (num : T → ℕ) (maxH : ℕ) (tree : T) (as : List A)
    (hstart : num tree < maxH) :
    ∃ k ≤ as.length,
      (extendTreeUntil extend num maxH tree as).1 =
        (as.take k).foldl extend tree ∧
      (∀ m < k, num ((as.take m).foldl extend tree) < maxH) ∧
      (if num (extendTreeUntil extend num maxH tree as).1 = maxH then
        (extendTreeUntil extend num maxH tree as).2 = as.drop k
       else if maxH ≤ num (extendTreeUntil extend num maxH tree as).1 then
        1 ≤ k ∧ (extendTreeUntil extend num maxH tree as).2 = as.drop (k - 1)
       else (extendTreeUntil extend num maxH tree as).2 = [] ∧
        k = as.length) := by
  induction as generalizing tree with
  | nil =>
    have e : extendTreeUntil extend num maxH tree ([] : List A) =
        (tree, []) := rfl
    refine ⟨0, le_refl _, rfl, by omega, ?_⟩
    rw [e]
    rw [if_neg (by simpa using Nat.ne_of_lt hstart),
        if_neg (by simpa using Nat.not_le.mpr hstart)]
    exact ⟨rfl, rfl⟩
  | cons a rest ih =>
    by_cases h1 : maxH ≤ num (extend tree a)
    · by_cases h2 : num (extend tree a) = maxH
      · have e : extendTreeUntil extend num maxH tree (a :: rest) =
            (extend tree a, rest) := by
          simp [extendTreeUntil, h1, h2]
        refine ⟨1, by simp, by simp [e], ?_, ?_⟩
        · intro m hm
          interval_cases m
          simpa using hstart
        · simp [e, h2]
      · have e : extendTreeUntil extend num maxH tree (a :: rest) =
            (extend tree a, a :: rest) := by
          simp [extendTreeUntil, h1, h2]
        refine ⟨1, by simp, by simp [e], ?_, ?_⟩
        · intro m hm
          interval_cases m
          simpa using hstart
        · simp [e, h2, h1]
    · have hstep : extendTreeUntil extend num maxH tree (a :: rest) =
          extendTreeUntil extend num maxH (extend tree a) rest := by
        simp [extendTreeUntil, h1]
      obtain ⟨k, hk, hfold, hbelow, hfinal⟩ :=
        ih (extend tree a) (by omega)
      refine ⟨k + 1, by simpa using Nat.succ_le_succ hk, ?_, ?_, ?_⟩
      · rw [hstep]
        simpa using hfold
      · intro m hm
        match m with
        | 0 => simpa using hstart
        | m' + 1 =>
          have := hbelow m' (by omega)
          simpa using this
      · rw [hstep]
        by_cases hA : num (extendTreeUntil extend num maxH (extend tree a)
            rest).1 = maxH
        · rw [if_pos hA] at hfinal ⊢
          simpa using hfinal
        · rw [if_neg hA] at hfinal ⊢
          by_cases hB : maxH ≤ num (extendTreeUntil extend num maxH
              (extend tree a) rest).1
          · rw [if_pos hB] at hfinal ⊢
            obtain ⟨hk1, hdrop⟩ := hfinal
            refine ⟨by omega, ?_⟩
            have hkeq : k + 1 - 1 = (k - 1) + 1 := by omega
            rw [hkeq, List.drop_succ_cons]
            exact hdrop
          · rw [if_neg hB] at hfinal ⊢
            obtain ⟨h', h''⟩ := hfinal
            exact ⟨h', by simp [h'']⟩

/-- C2, witness for the amended characterisation: the concrete spec-modelled
tree run. At the one-leaf tree (1 haplotype < 3) with the two alleles of the
counterexample the characterisation is discharged. -/
theorem extendTreeUntil_characterisation_witness :
    SpecTree.num [[]] < 3 ∧
    ∃ k ≤ ([((0 : ℕ), (1 : ℕ)), (2, 3)] : List (ℕ × ℕ)).length,
      (extendTreeUntil SpecTree.extend SpecTree.num 3
          [[]] [(0, 1), (2, 3)]).1 =
        (([((0 : ℕ), (1 : ℕ)), (2, 3)] : List (ℕ × ℕ)).take k).foldl
          SpecTree.extend [[]] ∧
      (∀ m < k, SpecTree.num
        ((([((0 : ℕ), (1 : ℕ)), (2, 3)] : List (ℕ × ℕ)).take m).foldl
          SpecTree.extend [[]]) < 3) ∧
      (if SpecTree.num (extendTreeUntil SpecTree.extend SpecTree.num 3
          [[]] [(0, 1), (2, 3)]).1 = 3 then
        (extendTreeUntil SpecTree.extend SpecTree.num 3
          [[]] [(0, 1), (2, 3)]).2 =
          ([((0 : ℕ), (1 : ℕ)), (2, 3)] : List (ℕ × ℕ)).drop k
       else if 3 ≤ SpecTree.num (extendTreeUntil SpecTree.extend SpecTree.num 3
          [[]] [(0, 1), (2, 3)]).1 then
        1 ≤ k ∧ (extendTreeUntil SpecTree.extend SpecTree.num 3
          [[]] [(0, 1), (2, 3)]).2 =
          ([((0 : ℕ), (1 : ℕ)), (2, 3)] : List (ℕ × ℕ)).drop (k - 1)
       else (extendTreeUntil SpecTree.extend SpecTree.num 3
          [[]] [(0, 1), (2, 3)]).2 = [] ∧ k = 2) :=
  ⟨by decide,
   extendTreeUntil_characterisation SpecTree.extend SpecTree.num 3
     [[]] [(0, 1), (2, 3)] (by decide)⟩

/-! ## Tumour model ploidy dispatch: `run_variational_bayes_helper`
(tumour_model.cpp, lines 479-507)

The helper switches on `genotypes.front().ploidy()` with explicit cases for
2..8 and throws `UnimplementedFeatureError` ("tumour model ploidies above 8")
in the default case. -/

/-- Modelled from the spec: `CancerGenotype<H>` (cancer_genotype.hpp is not in
the sources).  Per spec §3 it is a pair of a germline and a somatic genotype,
each an (ordered representative of an) unordered multiset of haplotypes, with
`ploidy = germline.ploidy`. -/
structure CancerGenotype where
  germline : List ℕ
  somatic : List ℕ

/-- `CancerGenotype::ploidy()`; per spec §3, the germline ploidy. -/
def CancerGenotype.ploidy (g : CancerGenotype) : ℕ := g.germline.length

/-- The error thrown by the `default:` case of the dispatch switch. -/
inductive TumourModelError where
  | unimplementedPloidy : TumourModelError
deriving DecidableEq

/-- `run_variational_bayes_helper`: switch on the first genotype's ploidy with
cases 2,3,4,5,6,7,8 dispatching to `run_variational_bayes<K>`, and the
`default:` case throwing.  The variational-Bayes engine itself
(variational_bayes_mixture_model.hpp, not in the sources) is abstracted as a
function `vb` of the ploidy. -/
def runVariationalBayesHelper {L : Type} (vb : ℕ → L)
    (genotypes : List CancerGenotype) : Except TumourModelError L :=
  match (genotypes.headD ⟨[], []⟩).ploidy with
  | 2 => .ok (vb 2)
  | 3 => .ok (vb 3)
  | 4 => .ok (vb 4)
  | 5 => .ok (vb 5)
  | 6 => .ok (vb 6)
  | 7 => .ok (vb 7)
  | 8 => .ok (vb 8)
  | _ => .error .unimplementedPloidy

/-- C3, counterexample.  The claim says the unsupported-ploidy error is raised
exactly for germline ploidy > 8 and that every ploidy in 1..8 dispatches to
the variational-Bayes implementation.  But the switch has cases only for
2..8, so germline ploidy 1 falls into the `default:` case and throws. -/
theorem runVariationalBayesHelper_ploidy_one_raises :
    runVariationalBayesHelper (fun k => k) [⟨[0], [1]⟩] =
      .error .unimplementedPloidy ∧ (1 ≤ (8 : ℕ)) := by
  exact ⟨rfl, by decide⟩

/-- C3, amended.  `run_variational_bayes_helper` raises the unsupported-ploidy
error exactly when the cancer genotypes' germline ploidy lies outside 2..8;
for every ploidy in 2..8 it dispatches to the variational-Bayes
implementation at that ploidy and does not raise. -/
theorem runVariationalBayesHelper_dispatch {L : Type} (vb : ℕ → L)
    (genotypes : List CancerGenotype) (g : CancerGenotype)
    (hhead : genotypes.headD ⟨[], []⟩ = g) :
    (runVariationalBayesHelper vb genotypes =
        .error .unimplementedPloidy ↔ (g.ploidy < 2 ∨ 8 < g.ploidy)) ∧
    (2 ≤ g.ploidy → g.ploidy ≤ 8 →
      runVariationalBayesHelper vb genotypes = .ok (vb g.ploidy)) := by
  subst hhead
  unfold runVariationalBayesHelper
  set p := (genotypes.headD ⟨[], []⟩).ploidy with hp
  constructor
  · constructor
    · intro herr
      by_contra hcon
      push_neg at hcon
      obtain ⟨h2, h8⟩ := hcon
      interval_cases p <;> simp_all
    · intro hrange
      have : p < 2 ∨ 8 < p := hrange
      match p, this with
      | 0, _ => rfl
      | 1, _ => rfl
      | n + 9, _ => rfl
      | 2, h | 3, h | 4, h | 5, h | 6, h | 7, h | 8, h => omega
  · intro h2 h8
    interval_cases p <;> rfl

/-- C3, witness: at a concrete diploid germline the helper dispatches to the
VB engine and does not raise. -/
theorem runVariationalBayesHelper_dispatch_witness :
    ([(⟨[0, 1], [2]⟩ : CancerGenotype)].headD ⟨[], []⟩ =
      (⟨[0, 1], [2]⟩ : CancerGenotype)) ∧
    (runVariationalBayesHelper (fun k => k) [⟨[0, 1], [2]⟩] =
        .error .unimplementedPloidy ↔
      ((⟨[0, 1], [2]⟩ : CancerGenotype).ploidy < 2 ∨
        8 < (⟨[0, 1], [2]⟩ : CancerGenotype).ploidy)) ∧
    (2 ≤ (⟨[0, 1], [2]⟩ : CancerGenotype).ploidy →
      (⟨[0, 1], [2]⟩ : CancerGenotype).ploidy ≤ 8 →
      runVariationalBayesHelper (fun k => k) [⟨[0, 1], [2]⟩] =
        .ok ((fun k => k) (⟨[0, 1], [2]⟩ : CancerGenotype).ploidy)) :=
  ⟨rfl, runVariationalBayesHelper_dispatch (fun k => k) [⟨[0, 1], [2]⟩]
    ⟨[0, 1], [2]⟩ rfl⟩

/-! ## Fixed-ploidy genotype likelihood model
(fixed_ploidy_genotype_likelihood_model.cpp)

`ln p(read | genotype) = ln sum {haplotype in genotype} p(read | haplotype)
 - ln ploidy` per the comment above `log_likelihood` (lines 32-33); the
haplotype likelihood cache is abstracted as a function from sample and
haplotype to the per-read log-likelihood list.  Haplotypes are labelled by
naturals. -/

noncomputable section

/-- Modelled from the spec: `Maths::log_sum_exp` over two values (maths.hpp is
not in the sources); per spec §7 every log-sum-exp uses the max-shift form,
which mathematically equals `log (exp a + exp b)`. -/
def logSumExp2 (a b : ℝ) : ℝ := Real.log (Real.exp a + Real.exp b)

/-- Modelled from the spec: `Maths::log_sum_exp` over three values. -/
def logSumExp3 (a b c : ℝ) : ℝ :=
  Real.log (Real.exp a + Real.exp b + Real.exp c)

/-- Modelled from the spec: `Maths::log_sum_exp` over a container. -/
def logSumExpList (xs : List ℝ) : ℝ := Real.log ((xs.map Real.exp).sum)

/-- Modelled from the spec: `Genotype::zygosity()`, the number of distinct
members of the haplotype multiset (genotype.hpp is not in the sources). -/
def zygosity (g : List ℕ) : ℕ := g.dedup.length

/-- Modelled from the spec: `Genotype::is_homozygous()`, all members equal. -/
def isHomozygous (g : List ℕ) : Bool := zygosity g = 1

/-- Modelled from the spec: `Genotype::count(h)`. -/
def genotypeCount (g : List ℕ) (h : ℕ) : ℕ := g.count h

/-- `FixedPloidyGenotypeLikelihoodModel::log_likelihood_haploid`. -/
def logLikelihoodHaploid (lik : ℕ → ℕ → List ℝ) (s : ℕ) (g : List ℕ) : ℝ :=
  (lik s (g.getD 0 0)).sum

/-- `FixedPloidyGenotypeLikelihoodModel::log_likelihood_diploid`:
homozygous fast path, else per-read `log_sum_exp(a, b) - ln 2`. -/
def logLikelihoodDiploid (lik : ℕ → ℕ → List ℝ) (s : ℕ) (g : List ℕ) : ℝ :=
  if isHomozygous g then (lik s (g.getD 0 0)).sum
  else (List.zipWith (fun a b => logSumExp2 a b - Real.log 2)
    (lik s (g.getD 0 0)) (lik s (g.getD 1 0))).sum

/-- `FixedPloidyGenotypeLikelihoodModel::log_likelihood_triploid` (lines
75-112).  Note the `zygosity() == 3` fast path: the source initialises
`log_likelihoods3` from `genotype[1]` (line 87), not `genotype[2]`. -/
def logLikelihoodTriploid (lik : ℕ → ℕ → List ℝ) (s : ℕ) (g : List ℕ) : ℝ :=
  if isHomozygous g then (lik s (g.getD 0 0)).sum
  else
    let l1 := lik s (g.getD 0 0)
    let l2 := lik s (g.getD 1 0)
    if zygosity g = 3 then
      let l3 := lik s (g.getD 1 0)
      (List.zipWith (fun ab c => logSumExp3 ab.1 ab.2 c - Real.log 3)
        (List.zip l1 l2) l3).sum
    else if genotypeCount g (g.getD 0 0) = 1 then
      (List.zipWith (fun a b => logSumExp2 a (2 * b) - Real.log 3) l1 l2).sum
    else
      (List.zipWith (fun a b => logSumExp2 (2 * a) b - Real.log 3) l1 l2).sum

/-- `FixedPloidyGenotypeLikelihoodModel::log_likelihood_polyploid`. -/
def logLikelihoodPolyploid (lik : ℕ → ℕ → List ℝ) (ploidy : ℕ) (s : ℕ)
    (g : List ℕ) : ℝ :=
  if isHomozygous g then (lik s (g.getD 0 0)).sum
  else ((List.range (lik s (g.getD 0 0)).length).map fun i =>
    logSumExpList (g.map fun h => (lik s h).getD i 0) - Real.log ploidy).sum

/-- `FixedPloidyGenotypeLikelihoodModel::log_likelihood`: ploidy dispatch. -/
def fixedPloidyLogLikelihood (lik : ℕ → ℕ → List ℝ) (ploidy : ℕ) (s : ℕ)
    (g : List ℕ) : ℝ :=
  match ploidy with
  | 1 => logLikelihoodHaploid lik s g
  | 2 => logLikelihoodDiploid lik s g
  | 3 => logLikelihoodTriploid lik s g
  | _ => logLikelihoodPolyploid lik ploidy s g

/-- The value the claim (and the comment above `log_likelihood`) specifies for
a triallelic triploid genotype: the sum over reads of
`log((P(r|h0) + P(r|h1) + P(r|h2)) / 3)` over the genotype's three distinct
haplotypes.  This definition follows the spec's words, for comparison with
the source embedding. -/
def specTriploidTriallelic (lik : ℕ → ℕ → List ℝ) (s : ℕ) (g : List ℕ) : ℝ :=
  (List.zipWith (fun ab c =>
      Real.log ((Real.exp ab.1 + Real.exp ab.2 + Real.exp c) / 3))
    (List.zip (lik s (g.getD 0 0)) (lik s (g.getD 1 0)))
    (lik s (g.getD 2 0))).sum

/-- C1, divergence at a failing input.  Sample 0 has one read; the three
distinct haplotypes 1, 2, 3 have read log-likelihoods `log 1 = 0`, `0` and
`log 2`.  The triallelic fast path (which reads `genotype[1]` twice instead
of `genotype[2]`) returns `log((1+1+1)/3) = 0`, whereas the formula over the
three distinct haplotypes gives `log((1+1+2)/3) = log(4/3) ≠ 0`. -/
theorem logLikelihoodTriploid_triallelic_bug :
    logLikelihoodTriploid
        (fun _ h => if h = 3 then [Real.log 2] else [0]) 0 [1, 2, 3] = 0 ∧
    specTriploidTriallelic
        (fun _ h => if h = 3 then [Real.log 2] else [0]) 0 [1, 2, 3] =
      Real.log (4 / 3) ∧
    (0 : ℝ) ≠ Real.log (4 / 3) := by
  refine ⟨?_, ?_, ?_⟩
  · have hz : zygosity [1, 2, 3] = 3 := by decide
    have hh : isHomozygous [1, 2, 3] = false := by decide
    simp only [logLikelihoodTriploid, hh, hz, Bool.false_eq_true, if_false,
      if_true, if_pos rfl]
    norm_num [logSumExp3, Real.exp_zero]
  · have h2 : Real.exp (Real.log 2) = 2 := Real.exp_log (by norm_num)
    simp only [specTriploidTriallelic]
    norm_num [Real.exp_zero, h2]
  · have : (0 : ℝ) < Real.log (4 / 3) := Real.log_pos (by norm_num)
    exact ne_of_lt this

end

/-! ## Coalescent prior model (coalescent_model.cpp)

`C(n,k,θ)` is computed in real space (`coalescent_real_space`, lines 139-146)
for `k ≤ 80` and via complex log-sum-exp (`coalescent_log_space`, lines
166-177) above; `coalescent` (lines 179-198) dispatches and composes the
SNP/indel split.  `CoalescentModel::evaluate` dispatches on `k_indel == 0`
(lines 202-211); the two result caches memoise the pure values. -/

noncomputable section

/-- `powm1` (line 123): `std::pow(-1, i)` for unsigned `i`. -/
def powm1 (i : ℕ) : ℝ := if i % 2 = 0 then 1 else -1

/-- `binom` (line 128): `boost::math::binomial_coefficient<double>`. -/
def binom (n k : ℕ) : ℝ := (n.choose k : ℝ)

/-- `maths::log_factorial` (maths.hpp not in the sources): `log n!`. -/
def logFactorial (n : ℕ) : ℝ := Real.log (n.factorial : ℝ)

/-- `log_binom` (line 133). -/
def logBinom (n k : ℕ) : ℝ :=
  logFactorial n - (logFactorial k + logFactorial (n - k))

/-- The alternating sum accumulated by `coalescent_real_space` (lines
141-144): `Σ_{i=2..n} (-1)^i · binom(n-1, i-1) · ((i-1)/(θ+i-1)) ·
(θ/(θ+i-1))^k`, indexed by `j = i - 2`. -/
def realSum (n k : ℕ) (θ : ℝ) : ℝ :=
  ((List.range (n - 1)).map fun j =>
    powm1 (j + 2) * binom (n - 1) (j + 1) *
      (((j : ℝ) + 1) / (θ + ((j : ℝ) + 1))) *
      (θ / (θ + ((j : ℝ) + 1))) ^ k).sum

/-- `coalescent_real_space` (lines 139-146). -/
def coalescentRealSpace (n k : ℕ) (θ : ℝ) : ℝ := Real.log (realSum n k θ)

/-- The complex log term `tmp[i-2]` built by `coalescent_log_space` (lines
168-175): `i·log(-1) + log_binom(n-1, i-1) + log((i-1)/(θ+i-1)) +
k·log(θ/(θ+i-1))`, with the last three addends real. -/
def logSpaceTerm (n k : ℕ) (θ : ℝ) (j : ℕ) : ℂ :=
  ((j : ℂ) + 2) * Complex.log (-1) +
    ((logBinom (n - 1) (j + 1) : ℝ) : ℂ) +
    ((Real.log (((j : ℝ) + 1) / (θ + ((j : ℝ) + 1))) : ℝ) : ℂ) +
    (k : ℂ) * ((Real.log (θ / (θ + ((j : ℝ) + 1))) : ℝ) : ℂ)

/-- `complex_log_sum_exp` (lines 148-158): shift by the entry of maximal real
part, sum the exponentials, and take the complex log. -/
def complexLogSumExp (l : List ℂ) : ℂ :=
  match l with
  | [] => 0
  | x :: xs =>
    let m := (x :: xs).foldl (fun a b => if a.re < b.re then b else a) x
    m + Complex.log (((x :: xs).map fun z => Complex.exp (z - m)).sum)

/-- `coalescent_log_space` (lines 166-177): real part of the complex
log-sum-exp of the term list. -/
def coalescentLogSpace (n k : ℕ) (θ : ℝ) : ℝ :=
  (complexLogSumExp ((List.range (n - 1)).map (logSpaceTerm n k θ))).re

/-- The `k ≤ 80` dispatch of `coalescent(n, k, theta)` (lines 179-186). -/
def coalescentC (n k : ℕ) (θ : ℝ) : ℝ :=
  if k ≤ 80 then coalescentRealSpace n k θ else coalescentLogSpace n k θ

/-- The SNP/indel composition `coalescent(n, k_snp, k_indel, θ_snp, θ_indel)`
(lines 188-198). -/
def coalescent5 (n ksnp kindel : ℕ) (θs θi : ℝ) : ℝ :=
  coalescentC n (ksnp + kindel) (θs + θi) +
    (ksnp : ℝ) * Real.log (θs / (θs + θi)) +
    (kindel : ℝ) * Real.log (θi / (θs + θi)) +
    logBinom (ksnp + kindel) ksnp

/-- A site in the difference buffer, as consumed by
`CoalescentModel::evaluate(k_snp, k_indel, n)` (lines 234-258): whether it is
an indel, its begin distance from the reference, and its region size. -/
structure SiteVariant where
  isIndel : Bool
  offset : ℕ
  size : ℕ

/-- `std::max_element` over a slice, as a fold. -/
def sliceMax (l : List ℝ) : ℝ := l.foldl max (l.headD 0)

/-- The indel-heterozygosity elevation loop of
`CoalescentModel::evaluate(k_snp, k_indel, n)` (lines 236-249): for each
indel site take the largest reference base indel heterozygosity over its
region and keep the running maximum against the base parameter. -/
def effectiveIndelHeterozygosity (refHets : List ℝ) (base : ℝ)
    (buffer : List SiteVariant) : ℝ :=
  buffer.foldl (fun cur s =>
    if s.isIndel then
      let v := sliceMax ((refHets.drop s.offset).take (max 1 s.size))
      if v > cur then v else cur
    else cur) base

/-- `CoalescentModel::evaluate(SiteCountTuple)` (lines 202-211) composed with
the `k_indel = 0` and `k_indel > 0` overloads (lines 213-258); the two result
caches only memoise these pure values. -/
def coalescentEvaluate (θs θi : ℝ) (refHets : List ℝ)
    (buffer : List SiteVariant) (ksnp kindel n : ℕ) : ℝ :=
  if kindel = 0 then coalescent5 n ksnp 0 θs θi
  else coalescent5 n ksnp kindel θs
    (effectiveIndelHeterozygosity refHets θi buffer)

/-- `CoalescentModel::Parameters`. -/
structure CoalescentParams where
  snpHeterozygosity : ℝ
  indelHeterozygosity : ℝ

/-- An exact tandem repeat as produced by
`tandem::extract_exact_tandem_repeats` (tandem.hpp not in the sources). -/
structure TandemRepeat where
  pos : ℕ
  length : ℕ
  period : ℕ

/-- `calculate_base_indel_heterozygosities` (lines 34-48): a vector of the
base rate, elevated over each exact tandem repeat of `n = length/period`
copies to `max(h, min(base · n^2.6, 1))`. -/
def calculateBaseIndelHeterozygosities (seqLen : ℕ)
    (repeats : List TandemRepeat) (base : ℝ) : List ℝ :=
  repeats.foldl (fun result r =>
    let n : ℕ := r.length / r.period
    let t := min (base * (n : ℝ) ^ (2.6 : ℝ)) 1
    result.mapIdx fun i h =>
      if r.pos ≤ i ∧ i < r.pos + r.length then max h t else h)
    (List.replicate seqLen base)

/-- The constructed model state (reference sequence length, elevated base
indel heterozygosities, parameters); the difference caches are memoisation
and carry no specified state. -/
structure CoalescentModel where
  refBaseIndelHeterozygosities : List ℝ
  params : CoalescentParams

/-- `CoalescentModel::CoalescentModel` (lines 50-78): throws
`std::domain_error` when `snp_heterozygosity <= 0 || indel_heterozygosity <=
0`, otherwise computes the reference base indel heterozygosities and
succeeds.  The tandem-repeat extractor is abstracted as a parameter. -/
def makeCoalescentModel (extractRepeats : ℕ → List TandemRepeat)
    (refLen : ℕ) (params : CoalescentParams) : Except String CoalescentModel :=
  if params.snpHeterozygosity ≤ 0 ∨ params.indelHeterozygosity ≤ 0 then
    .error "CoalescentModel: snp and indel heterozygosity must be > 0"
  else
    .ok ⟨calculateBaseIndelHeterozygosities refLen (extractRepeats refLen)
      params.indelHeterozygosity, params⟩

/-- `powm1 i = (-1)^i`. -/
theorem powm1_eq_neg_one_pow (i : ℕ) : powm1 i = (-1 : ℝ) ^ i := by
  unfold powm1
  rcases Nat.even_or_odd i with h | h
  · rw [if_pos (Nat.even_iff.mp h), h.neg_one_pow]
  · rw [if_neg (by simpa using Nat.odd_iff.mp h), h.neg_one_pow]

/-- The exponential of the complex log-space term is the real-space term. -/
theorem exp_logSpaceTerm (n k j : ℕ) (θ : ℝ) (hj : j < n - 1) (hθ : 0 < θ) :
    Complex.exp (logSpaceTerm n k θ j) =
      ((powm1 (j + 2) * binom (n - 1) (j + 1) *
        (((j : ℝ) + 1) / (θ + ((j : ℝ) + 1))) *
        (θ / (θ + ((j : ℝ) + 1))) ^ k : ℝ) : ℂ) := by
  have hd : (0 : ℝ) < θ + ((j : ℝ) + 1) := by positivity
  have hr1 : (0 : ℝ) < ((j : ℝ) + 1) / (θ + ((j : ℝ) + 1)) := by positivity
  have hr2 : (0 : ℝ) < θ / (θ + ((j : ℝ) + 1)) := by positivity
  unfold logSpaceTerm
  rw [Complex.exp_add, Complex.exp_add, Complex.exp_add]
  have e1 : Complex.exp (((j : ℂ) + 2) * Complex.log (-1)) =
      ((powm1 (j + 2) : ℝ) : ℂ) := by
    have hcast : ((j : ℂ) + 2) = ((j + 2 : ℕ) : ℂ) := by push_cast; ring
    rw [hcast, Complex.log_neg_one, Complex.exp_nat_mul, Complex.exp_pi_mul_I,
      powm1_eq_neg_one_pow]
    push_cast
    ring
  have hfacpos : ∀ m : ℕ, (0 : ℝ) < (m.factorial : ℝ) := fun m => by
    exact_mod_cast m.factorial_pos
  have e2 : Complex.exp ((logBinom (n - 1) (j + 1) : ℝ) : ℂ) =
      ((binom (n - 1) (j + 1) : ℝ) : ℂ) := by
    rw [← Complex.ofReal_exp]
    norm_cast
    unfold logBinom logFactorial binom
    rw [Real.exp_sub, Real.exp_add, Real.exp_log (hfacpos _),
      Real.exp_log (hfacpos _), Real.exp_log (hfacpos _)]
    have hle : j + 1 ≤ n - 1 := by omega
    have hfac := Nat.choose_mul_factorial_mul_factorial hle
    have hfacR : ((n - 1).choose (j + 1) : ℝ) * ((j + 1).factorial : ℝ) *
        (((n - 1) - (j + 1)).factorial : ℝ) = ((n - 1).factorial : ℝ) := by
      exact_mod_cast congrArg (fun m : ℕ => (m : ℝ)) hfac
    rw [div_eq_iff (by positivity), ← hfacR]
    ring
  have e3 : Complex.exp
      ((Real.log (((j : ℝ) + 1) / (θ + ((j : ℝ) + 1))) : ℝ) : ℂ) =
      ((((j : ℝ) + 1) / (θ + ((j : ℝ) + 1)) : ℝ) : ℂ) := by
    rw [← Complex.ofReal_exp, Real.exp_log hr1]
  have e4 : Complex.exp ((k : ℂ) *
      ((Real.log (θ / (θ + ((j : ℝ) + 1))) : ℝ) : ℂ)) =
      (((θ / (θ + ((j : ℝ) + 1))) ^ k : ℝ) : ℂ) := by
    rw [Complex.exp_nat_mul, ← Complex.ofReal_exp, Real.exp_log hr2]
    norm_cast
  rw [e1, e2, e3, e4]
  push_cast
  ring

/-- Mapped lists of reals sum to the coerced complex sum. -/
theorem ofReal_map_sum (f : ℕ → ℝ) (l : List ℕ) :
    (((l.map f).sum : ℝ) : ℂ) = (l.map fun j => ((f j : ℝ) : ℂ)).sum := by
  induction l with
  | nil => simp
  | cons a t ih => simp [ih]

/-- The sum of exponentials of the log-space terms is the real-space
alternating sum. -/
theorem sum_exp_logSpaceTerm (n k : ℕ) (θ : ℝ) (hθ : 0 < θ) :
    (((List.range (n - 1)).map (logSpaceTerm n k θ)).map Complex.exp).sum =
      ((realSum n k θ : ℝ) : ℂ) := by
  rw [List.map_map]
  unfold realSum
  rw [ofReal_map_sum]
  apply congrArg List.sum
  apply List.map_congr_left
  intro j hj
  simpa using exp_logSpaceTerm n k j θ (List.mem_range.mp hj) hθ

/-- The real part of `complex_log_sum_exp` is the log of the modulus of the
sum of the exponentials, independently of the max shift. -/
theorem complexLogSumExp_re (l : List ℂ) (hl : l ≠ [])
    (hsum : (l.map Complex.exp).sum ≠ 0) :
    (complexLogSumExp l).re =
      Real.log (Complex.abs ((l.map Complex.exp).sum)) := by
  match l with
  | x :: xs =>
    set m := (x :: xs).foldl (fun a b => if a.re < b.re then b else a) x
      with hm
    have e : complexLogSumExp (x :: xs) =
        m + Complex.log (((x :: xs).map fun z =>
          Complex.exp (z - m)).sum) := rfl
    have h1 : ((x :: xs).map fun z => Complex.exp (z - m)) =
        ((x :: xs).map fun z => Complex.exp z * Complex.exp (-m)) := by
      apply List.map_congr_left
      intro z _
      rw [Complex.exp_sub, Complex.exp_neg, div_eq_mul_inv]
    have h2 : ((x :: xs).map fun z => Complex.exp z * Complex.exp (-m)).sum =
        ((x :: xs).map Complex.exp).sum * Complex.exp (-m) := by
      rw [← List.sum_map_mul_right]
    have habs : Complex.abs (((x :: xs).map Complex.exp).sum) ≠ 0 :=
      Complex.abs.ne_zero hsum
    rw [e, h1, h2, Complex.add_re, Complex.log_re, map_mul Complex.abs,
      Complex.abs_exp, Real.log_mul habs (Real.exp_ne_zero _),
      Real.log_exp, Complex.neg_re]
    ring

/-- C5.  For `n ≥ 2`, `θ > 0` and a non-vanishing alternating sum, the
real-space evaluation of `C(n,k,θ)` and the complex-log-sum-exp evaluation
compute the same value, and `coalescent` dispatches to the real-space form
exactly for `k ≤ 80` and to the complex-log form for `k > 80`. -/
theorem coalescent_real_eq_log_space (n k : ℕ) (θ : ℝ)
    (hn : 2 ≤ n) (hθ : 0 < θ) (hS : realSum n k θ ≠ 0) :
    coalescentRealSpace n k θ = coalescentLogSpace n k θ ∧
    (k ≤ 80 → coalescentC n k θ = coalescentRealSpace n k θ) ∧
    (80 < k → coalescentC n k θ = coalescentLogSpace n k θ) := by
  refine ⟨?_, fun h => by simp [coalescentC, h],
    fun h => by simp [coalescentC, Nat.not_le.mpr h]⟩
  unfold coalescentLogSpace coalescentRealSpace
  have hne : (List.range (n - 1)).map (logSpaceTerm n k θ) ≠ [] := by
    simp only [ne_eq, List.map_eq_nil_iff, List.range_eq_nil]
    omega
  have hsum : ((((List.range (n - 1)).map (logSpaceTerm n k θ)).map
      Complex.exp).sum) ≠ 0 := by
    rw [sum_exp_logSpaceTerm n k θ hθ]
    exact Complex.ofReal_ne_zero.mpr hS
  rw [complexLogSumExp_re _ hne hsum, sum_exp_logSpaceTerm n k θ hθ,
    Complex.abs_ofReal, Real.log_abs]

/-- C5, witness: at `n = 2`, `k = 0`, `θ = 1` the alternating sum is `1/2 ≠ 0`
and the equivalence and dispatch hold. -/
theorem coalescent_real_eq_log_space_witness :
    ((2 : ℕ) ≤ 2 ∧ (0 : ℝ) < 1 ∧ realSum 2 0 1 ≠ 0) ∧
    (coalescentRealSpace 2 0 1 = coalescentLogSpace 2 0 1 ∧
      ((0 : ℕ) ≤ 80 → coalescentC 2 0 1 = coalescentRealSpace 2 0 1) ∧
      (80 < (0 : ℕ) → coalescentC 2 0 1 = coalescentLogSpace 2 0 1)) := by
  have hS : realSum 2 0 1 ≠ 0 := by
    unfold realSum powm1 binom
    have hr : List.range 1 = [0] := rfl
    simp [hr]
  exact ⟨⟨by norm_num, by norm_num, hS⟩,
    coalescent_real_eq_log_space 2 0 1 (by norm_num) (by norm_num) hS⟩

/-- C4.  `CoalescentModel::evaluate` on counts `(k_snp, k_indel)` with `n`
haplotypes and positive heterozygosities returns
`C(n, k_snp+k_indel, θ_snp+θ_indel) + k_snp·log(θ_snp/θ) +
k_indel·log(θ_indel/θ) + log binom(k_snp+k_indel, k_snp)` where
`θ = θ_snp + θ_indel`; stated for site buffers whose sites are not indels
(e.g. the empty buffer), where the tandem-repeat elevation leaves the indel
heterozygosity at its base value. -/
theorem coalescentEvaluate_formula (θs θi : ℝ) (refHets : List ℝ)
    (buffer : List SiteVariant) (ksnp kindel n : ℕ)
    (hθs : 0 < θs) (hθi : 0 < θi)
    (hbuf : ∀ s ∈ buffer, s.isIndel = false) :
    coalescentEvaluate θs θi refHets buffer ksnp kindel n =
      coalescentC n (ksnp + kindel) (θs + θi) +
        (ksnp : ℝ) * Real.log (θs / (θs + θi)) +
        (kindel : ℝ) * Real.log (θi / (θs + θi)) +
        logBinom (ksnp + kindel) ksnp := by
  have heff : ∀ (b : List SiteVariant), (∀ s ∈ b, s.isIndel = false) →
      ∀ c : ℝ, b.foldl (fun cur s =>
        if s.isIndel then
          let v := sliceMax ((refHets.drop s.offset).take (max 1 s.size))
          if v > cur then v else cur
        else cur) c = c := by
    intro b
    induction b with
    | nil => intro _ c; rfl
    | cons s t ih =>
      intro h c
      rw [List.foldl_cons]
      have hs : s.isIndel = false := h s (by simp)
      simp only [hs, Bool.false_eq_true, if_false]
      exact ih (fun x hx => h x (by simp [hx])) c
  unfold coalescentEvaluate
  by_cases hk : kindel = 0
  · subst hk
    simp [coalescent5]
  · rw [if_neg hk]
    unfold effectiveIndelHeterozygosity
    rw [heff buffer hbuf θi]
    rfl

/-- C4, witness: concrete counts `(1, 1)`, `n = 2`, unit heterozygosities and
the empty site buffer. -/
theorem coalescentEvaluate_formula_witness :
    ((0 : ℝ) < 1 ∧ (∀ s ∈ ([] : List SiteVariant), s.isIndel = false)) ∧
    coalescentEvaluate 1 1 [] [] 1 1 2 =
      coalescentC 2 (1 + 1) ((1 : ℝ) + 1) +
        ((1 : ℕ) : ℝ) * Real.log (1 / ((1 : ℝ) + 1)) +
        ((1 : ℕ) : ℝ) * Real.log (1 / ((1 : ℝ) + 1)) +
        logBinom (1 + 1) 1 :=
  ⟨⟨by norm_num, by simp⟩,
    coalescentEvaluate_formula 1 1 [] [] 1 1 2 (by norm_num) (by norm_num)
      (by simp)⟩

/-- C10.  The `CoalescentModel` constructor raises the domain error exactly
when `snp_heterozygosity ≤ 0` or `indel_heterozygosity ≤ 0`; with both
strictly positive, construction succeeds with the elevated base indel
heterozygosities. -/
theorem makeCoalescentModel_error_iff
    (extractRepeats : ℕ → List TandemRepeat) (refLen : ℕ)
    (params : CoalescentParams) :
    (makeCoalescentModel extractRepeats refLen params =
        .error "CoalescentModel: snp and indel heterozygosity must be > 0" ↔
      (params.snpHeterozygosity ≤ 0 ∨ params.indelHeterozygosity ≤ 0)) ∧
    (0 < params.snpHeterozygosity → 0 < params.indelHeterozygosity →
      makeCoalescentModel extractRepeats refLen params =
        .ok ⟨calculateBaseIndelHeterozygosities refLen
          (extractRepeats refLen) params.indelHeterozygosity, params⟩) := by
  unfold makeCoalescentModel
  by_cases h : params.snpHeterozygosity ≤ 0 ∨ params.indelHeterozygosity ≤ 0
  · rw [if_pos h]
    refine ⟨⟨fun _ => h, fun _ => rfl⟩, fun h1 h2 => ?_⟩
    exfalso
    rcases h with h | h <;> linarith
  · rw [if_neg h]
    refine ⟨⟨fun he => ?_, fun hh => absurd hh h⟩, fun _ _ => rfl⟩
    simp at he

/-- C10, witness: unit heterozygosities with no tandem repeats construct
successfully. -/
theorem makeCoalescentModel_error_iff_witness :
    ((makeCoalescentModel (fun _ => []) 0 ⟨1, 1⟩ =
        .error "CoalescentModel: snp and indel heterozygosity must be > 0" ↔
      ((1 : ℝ) ≤ 0 ∨ (1 : ℝ) ≤ 0)) ∧
    ((0 : ℝ) < 1 → (0 : ℝ) < 1 →
      makeCoalescentModel (fun _ => []) 0 ⟨1, 1⟩ =
        .ok ⟨calculateBaseIndelHeterozygosities 0 [] 1, ⟨1, 1⟩⟩)) :=
  makeCoalescentModel_error_iff (fun _ => []) 0 ⟨1, 1⟩

end

/-! ## Single read model (single_read_model.cpp)

`SingleReadModel::log_probability` sets up the three-state pair-HMM
parameters (lines 46-94), calls `nuc_log_viterbi_local` and subtracts
`|haplotype| · log(target_emission)` (lines 96-101).  The pair-HMM itself
(pair_hmm.hpp, not in the sources) is abstracted as a function argument; the
per-(read, haplotype) cache memoises the same pure value. -/

/-- `RandomModel<double>` as configured by `SingleReadModel` (the fields set
at lines 46-48, 55-57 and per-branch end probabilities). -/
structure RandomModel where
  targetEmission : ℝ
  queryEmission : ℝ
  targetEnd : ℝ
  queryEnd : ℝ

/-- `MatchModel<double>` as configured by `SingleReadModel` (lines 50-53 and
per-branch end probability). -/
structure MatchModel where
  matchProbability : ℝ
  gapOpen : ℝ
  gapExtend : ℝ
  endProbability : ℝ

/-- Modelled from the spec: half-open contig-interval operations from
mappable.hpp (not in the sources), standard interval semantics. -/
def rOverlaps (a b : ℕ × ℕ) : Bool := a.1 < b.2 && b.1 < a.2

/-- `get_overlapped`: the interval intersection. -/
def rOverlapped (a b : ℕ × ℕ) : ℕ × ℕ := (max a.1 b.1, min a.2 b.2)

/-- `get_encompassing`: the interval hull. -/
def rEncompassing (a b : ℕ × ℕ) : ℕ × ℕ := (min a.1 b.1, max a.2 b.2)

/-- `size` of a half-open interval. -/
def rSize (a : ℕ × ℕ) : ℕ := a.2 - a.1

/-- `size(get_left_overhang(covered, overlapped))`. -/
def leftOverhangSize (covered overlapped : ℕ × ℕ) : ℕ :=
  overlapped.1 - covered.1

/-- `size(get_right_overhang(covered, overlapped))`. -/
def rightOverhangSize (covered overlapped : ℕ × ℕ) : ℕ :=
  covered.2 - overlapped.2

/-- `begins_before`. -/
def beginsBefore (a b : ℕ × ℕ) : Bool := a.1 < b.1

/-- `ends_before`. -/
def endsBefore (a b : ℕ × ℕ) : Bool := a.2 < b.2

/-- A mapped sequence (read or haplotype): contig region, base sequence and
qualities. -/
structure MappableSeq where
  region : ℕ × ℕ
  seq : List ℕ
  quals : List ℕ

noncomputable section

/-- The pair-HMM parameter setup of `SingleReadModel::log_probability`
(lines 46-94): emissions 0.25, `gap_open = 0.015`, `gap_extend = 0.020`,
`max_match_end_prob = 1 - max(2·gap_open, gap_extend)`, and the
overlap-dependent end probabilities. -/
def singleReadPairHMMParams (read hap : MappableSeq) :
    RandomModel × MatchModel × RandomModel :=
  let maxMatchEnd : ℝ := 1 - max (2 * 0.015) 0.020
  if rOverlaps read.region hap.region then
    let ov := rOverlapped read.region hap.region
    let cov := rEncompassing read.region hap.region
    let lhs : RandomModel :=
      if beginsBefore read.region hap.region then
        ⟨0.25, 0.25, 0.99, 1 / ((leftOverhangSize cov ov : ℝ) + 1)⟩
      else
        ⟨0.25, 0.25, 1 / ((leftOverhangSize cov ov : ℝ) + 1), 0.99⟩
    let m : MatchModel :=
      ⟨0.25, 0.015, 0.020, min (1 / ((rSize ov : ℝ) + 1)) maxMatchEnd⟩
    let rhs : RandomModel :=
      if endsBefore read.region hap.region then
        ⟨0.25, 0.25, 1 / ((rightOverhangSize cov ov : ℝ) + 1), 0.99⟩
      else
        ⟨0.25, 0.25, 0.99, 1 / ((rightOverhangSize cov ov : ℝ) + 1)⟩
    (lhs, m, rhs)
  else
    (⟨0.25, 0.25, 1 / ((rSize hap.region : ℝ) + 1),
      1 / ((rSize read.region : ℝ) + 1)⟩,
     ⟨0.25, 0.015, 0.020, maxMatchEnd⟩,
     ⟨0.25, 0.25, 0.99, 0.99⟩)

/-- `SingleReadModel::log_probability` (lines 33-106): the joint log-Viterbi
score of the three-state pair-HMM minus
`|haplotype| · log(lhs_random.target_emission_probability)`. -/
def singleReadLogProbability
    (viterbi : List ℕ → List ℕ → List ℕ →
      RandomModel → MatchModel → RandomModel → ℝ)
    (read hap : MappableSeq) : ℝ :=
  let p := singleReadPairHMMParams read hap
  let joint := viterbi hap.seq read.seq read.quals p.1 p.2.1 p.2.2
  joint - (hap.seq.length : ℝ) * Real.log p.1.targetEmission

/-- C8.  `log_probability` returns the joint log-Viterbi score minus
`|haplotype| · log(target_emission)` with `target_emission = 0.25`, and the
match-state end probability always satisfies
`match.end ≤ min(1 − 2·gap_open, 1 − gap_extend)` with `gap_open = 0.015`
and `gap_extend = 0.020`. -/
theorem singleReadLogProbability_conditional_and_match_end
    (viterbi : List ℕ → List ℕ → List ℕ →
      RandomModel → MatchModel → RandomModel → ℝ)
    (read hap : MappableSeq) :
    (singleReadLogProbability viterbi read hap =
      viterbi hap.seq read.seq read.quals
          (singleReadPairHMMParams read hap).1
          (singleReadPairHMMParams read hap).2.1
          (singleReadPairHMMParams read hap).2.2 -
        (hap.seq.length : ℝ) * Real.log 0.25) ∧
    (singleReadPairHMMParams read hap).2.1.endProbability ≤
      min (1 - 2 * (0.015 : ℝ)) (1 - (0.020 : ℝ)) := by
  have hmax : 1 - max (2 * (0.015 : ℝ)) 0.020 =
      min (1 - 2 * (0.015 : ℝ)) (1 - (0.020 : ℝ)) := by
    norm_num
  constructor
  · have hemission : (singleReadPairHMMParams read hap).1.targetEmission =
        (0.25 : ℝ) := by
      unfold singleReadPairHMMParams
      cases h1 : rOverlaps read.region hap.region
      · simp
      · cases h2 : beginsBefore read.region hap.region <;> simp [h2]
    simp only [singleReadLogProbability, hemission]
  · unfold singleReadPairHMMParams
    cases h1 : rOverlaps read.region hap.region
    · simp only [Bool.false_eq_true, if_false]
      rw [← hmax]
    · simp only [if_true]
      rw [← hmax]
      exact min_le_right _ _

end

/-! ## Haplotype likelihood cache (haplotype_likelihood_cache.cpp)

`populate` (lines 29-111) fills, for each haplotype, one vector per sample of
per-read log-likelihoods; `log_likelihoods` (lines 113-118) returns
`cache_.at(haplotype)[sample_indices_.at(sample)]`.  The kmer hashing and
candidate mapping positions only feed the abstracted per-read likelihood
value, not the layout.  Samples, reads and haplotypes are labelled by
naturals; the read map is an ordered association list as iterated by the
C++ map. -/

/-- The `cache_.emplace` + write-through-iterator step of `populate` for one
haplotype: the entry for the haplotype ends up holding the freshly computed
per-sample lists whether or not the key was already present. -/
def cacheInsert (cache : List (ℕ × List (List ℝ))) (h : ℕ)
    (v : List (List ℝ)) : List (ℕ × List (List ℝ)) :=
  if cache.any (fun e => e.1 = h) then
    cache.map (fun e => if e.1 = h then (h, v) else e)
  else cache ++ [(h, v)]

/-- The body of the haplotype loop of `populate` (lines 76-108): compute the
per-sample per-read log-likelihood lists for one haplotype and store them. -/
def populateStep (logProb : ℕ → ℕ → ℝ) (reads : List (ℕ × List ℕ))
    (cache : List (ℕ × List (List ℝ))) (h : ℕ) :
    List (ℕ × List (List ℝ)) :=
  cacheInsert cache h (reads.map fun t => t.2.map (logProb h))

/-- `HaplotypeLikelihoodCache::populate`: for each haplotype, store one
per-read log-likelihood vector per sample, of length the sample's read
count. -/
def populate (logProb : ℕ → ℕ → ℝ) (reads : List (ℕ × List ℕ))
    (haps : List ℕ) : List (ℕ × List (List ℝ)) :=
  haps.foldl (populateStep logProb reads) []

/-- `set_read_iterators_and_sample_indices`: each sample maps to its index in
map-iteration order (`emplace` keeps the first occurrence). -/
def sampleIndex (reads : List (ℕ × List ℕ)) (s : ℕ) : ℕ :=
  reads.findIdx (fun t => t.1 = s)

/-- `HaplotypeLikelihoodCache::log_likelihoods(sample, haplotype)`:
`cache_.at(haplotype)[sample_indices_.at(sample)]`. -/
def logLikelihoods (logProb : ℕ → ℕ → ℝ) (reads : List (ℕ × List ℕ))
    (haps : List ℕ) (s h : ℕ) : List ℝ :=
  ((((populate logProb reads haps).find? (fun e => e.1 = h)).map
    Prod.snd).getD []).getD (sampleIndex reads s) []

/-- Every entry of the populated cache holds the canonical per-sample lists
for its haplotype. -/
theorem cacheInsert_entries (reads : List (ℕ × List ℕ))
    (logProb : ℕ → ℕ → ℝ) (cache : List (ℕ × List (List ℝ))) (a : ℕ)
    (hc : ∀ e ∈ cache, e = (e.1, reads.map fun t => t.2.map (logProb e.1))) :
    ∀ e ∈ cacheInsert cache a (reads.map fun t => t.2.map (logProb a)),
      e = (e.1, reads.map fun t => t.2.map (logProb e.1)) := by
  intro e' he'
  unfold cacheInsert at he'
  split at he'
  · obtain ⟨x, hx, hxe⟩ := List.mem_map.mp he'
    by_cases hx1 : x.1 = a
    · rw [if_pos hx1] at hxe
      subst hxe
      rfl
    · rw [if_neg hx1] at hxe
      subst hxe
      exact hc x hx
  · rcases List.mem_append.mp he' with hmem | hmem
    · exact hc e' hmem
    · rcases List.mem_singleton.mp hmem with rfl
      rfl

theorem populate_entries_canonical (logProb : ℕ → ℕ → ℝ)
    (reads : List (ℕ × List ℕ)) (haps : List ℕ) :
    ∀ e ∈ populate logProb reads haps,
      e = (e.1, reads.map fun t => t.2.map (logProb e.1)) := by
  unfold populate
  suffices hgen : ∀ (hs : List ℕ) (cache : List (ℕ × List (List ℝ))),
      (∀ e ∈ cache, e = (e.1, reads.map fun t => t.2.map (logProb e.1))) →
      ∀ e ∈ hs.foldl (populateStep logProb reads) cache,
        e = (e.1, reads.map fun t => t.2.map (logProb e.1)) by
    exact hgen haps [] (by simp)
  intro hs
  induction hs with
  | nil => intro cache hc e he; exact hc e he
  | cons a t ih =>
    intro cache hc e he
    rw [List.foldl_cons] at he
    exact ih (populateStep logProb reads cache a)
      (cacheInsert_entries reads logProb cache a hc) e he

/-- `cacheInsert` keeps every existing key. -/
theorem cacheInsert_keeps_key (cache : List (ℕ × List (List ℝ))) (a h : ℕ)
    (v : List (List ℝ)) (hex : ∃ e ∈ cache, e.1 = h) :
    ∃ e ∈ cacheInsert cache a v, e.1 = h := by
  obtain ⟨e, he, he1⟩ := hex
  unfold cacheInsert
  split
  · by_cases he1a : e.1 = a
    · exact ⟨(a, v), List.mem_map.mpr ⟨e, he, by rw [if_pos he1a]⟩,
        by rw [← he1a, he1]⟩
    · exact ⟨e, List.mem_map.mpr ⟨e, he, by rw [if_neg he1a]⟩, he1⟩
  · exact ⟨e, List.mem_append.mpr (Or.inl he), he1⟩

/-- `cacheInsert` establishes the inserted key. -/
theorem cacheInsert_adds_key (cache : List (ℕ × List (List ℝ))) (a : ℕ)
    (v : List (List ℝ)) : ∃ e ∈ cacheInsert cache a v, e.1 = a := by
  unfold cacheInsert
  split
  · next hany =>
    obtain ⟨e, he, he1⟩ := List.any_eq_true.mp hany
    exact ⟨(a, v), List.mem_map.mpr ⟨e, he,
      by rw [if_pos (by simpa using he1)]⟩, rfl⟩
  · exact ⟨(a, v), List.mem_append.mpr (Or.inr (by simp)), rfl⟩

/-- A populated cache has an entry for every haplotype of the input list. -/
theorem populate_mem (logProb : ℕ → ℕ → ℝ) (reads : List (ℕ × List ℕ))
    (haps : List ℕ) (h : ℕ) (hh : h ∈ haps) :
    ∃ e ∈ populate logProb reads haps, e.1 = h := by
  unfold populate
  suffices hgen : ∀ (hs : List ℕ) (cache : List (ℕ × List (List ℝ))),
      (h ∈ hs ∨ ∃ e ∈ cache, e.1 = h) →
      ∃ e ∈ hs.foldl (populateStep logProb reads) cache, e.1 = h by
    exact hgen haps [] (Or.inl hh)
  intro hs
  induction hs with
  | nil =>
    intro cache hc
    rcases hc with hc | hc
    · exact absurd hc (List.not_mem_nil h)
    · exact hc
  | cons a t ih =>
    intro cache hc
    rw [List.foldl_cons]
    by_cases hha : h = a
    · subst hha
      exact ih _ (Or.inr (cacheInsert_adds_key cache h _))
    · rcases hc with hc | hc
      · rcases List.mem_cons.mp hc with rfl | hct
        · exact absurd rfl hha
        · exact ih _ (Or.inl hct)
      · exact ih _ (Or.inr (cacheInsert_keeps_key cache a h _ hc))

/-- C9.  After `populate(reads, haplotypes, flank_state)`, for every sample
present in the read map and every haplotype of the input list,
`log_likelihoods(sample, haplotype)` has length equal to the number of reads
of that sample. -/
theorem logLikelihoods_length (logProb : ℕ → ℕ → ℝ)
    (reads : List (ℕ × List ℕ)) (haps : List ℕ) (s h : ℕ)
    (hh : h ∈ haps) (hs : sampleIndex reads s < reads.length) :
    (logLikelihoods logProb reads haps s h).length =
      (reads.getD (sampleIndex reads s) (0, [])).2.length := by
  obtain ⟨e, he, he1⟩ := populate_mem logProb reads haps h hh
  have hfind : ((populate logProb reads haps).find?
      (fun x => x.1 = h)).isSome := by
    rw [List.find?_isSome]
    exact ⟨e, he, by simpa using he1⟩
  obtain ⟨x, hx⟩ := Option.isSome_iff_exists.mp hfind
  have hxmem := List.mem_of_find?_eq_some hx
  have hx1 : x.1 = h := by simpa using List.find?_some hx
  have hxcanon := populate_entries_canonical logProb reads haps x hxmem
  unfold logLikelihoods
  rw [hx, hxcanon, hx1]
  simp [List.getD_eq_getElem?_getD, List.getElem?_map,
    List.getElem?_eq_getElem hs]

/-- C9, witness: one sample with one read and one haplotype. -/
theorem logLikelihoods_length_witness :
    ((5 : ℕ) ∈ [(5 : ℕ)] ∧
      sampleIndex [(0, [7])] 0 < ([((0 : ℕ), [(7 : ℕ)])]).length) ∧
    (logLikelihoods (fun _ _ => (0 : ℝ)) [(0, [7])] [5] 0 5).length =
      (([((0 : ℕ), [(7 : ℕ)])]).getD (sampleIndex [(0, [7])] 0)
        (0, [])).2.length :=
  ⟨⟨by simp, by decide⟩,
    logLikelihoods_length (fun _ _ => (0 : ℝ)) [(0, [7])] [5] 0 5
      (by simp) (by decide)⟩

/-! ## Tumour model seed generation (tumour_model.cpp, lines 210-461)

`generate_seeds` (lines 444-461) returns the exhaustive point seeds when
`|G| ≤ min(max_seeds, num_weighted_seeds)`, else the weighted seeds, extended
by `generate_targetted_seeds` only when fewer than `max_seeds`.  The germline
likelihood model (`GermlineLikelihoodModel::evaluate`, not in the sources) is
abstracted as a function of sample and genotype, and the genotype prior model
likewise. -/

noncomputable section

/-- Modelled from the spec: `demote(g)` = germline ∪ somatic as a flat
genotype of size ploidy + somatic_ploidy (spec §3; cancer_genotype.hpp not in
the sources). -/
def demote (g : CancerGenotype) : List ℕ := g.germline ++ g.somatic

/-- Modelled from the spec: `maths::normalise_logs` (maths.hpp not in the
sources), subtracting the log-sum-exp so the distribution normalises. -/
def normaliseLogs (v : List ℝ) : List ℝ := v.map (· - logSumExpList v)

/-- `compute_log_posteriors` (lines 200-208): prior + likelihood,
normalised. -/
def computeLogPosteriors (logPriors logLik : List ℝ) : List ℝ :=
  normaliseLogs (List.zipWith (· + ·) logPriors logLik)

/-- `make_point_seed(num_genotypes, n, p = 0.9999)` (lines 215-220). -/
def makePointSeed (numGenotypes n : ℕ) (p : ℝ) : List ℝ :=
  if 1 < numGenotypes then
    (List.range numGenotypes).map fun j =>
      if j = n then Real.log p
      else Real.log ((1 - p) / ((numGenotypes : ℝ) - 1))
  else List.replicate numGenotypes 0

/-- `make_range_seed(num_genotypes, begin, n, p = 0.9999)` (lines
230-235). -/
def makeRangeSeed (numGenotypes b n : ℕ) (p : ℝ) : List ℝ :=
  (List.range numGenotypes).map fun j =>
    if b ≤ j ∧ j < b + n then Real.log (p / (n : ℝ))
    else Real.log ((1 - p) / ((numGenotypes : ℝ) - (n : ℝ)))

/-- `make_range_seed(genotypes, germline, p = 0.9999)` (lines 237-242): the
contiguous run of genotypes sharing the germline. -/
def makeRangeSeedG (genotypes : List CancerGenotype) (germline : List ℕ)
    (p : ℝ) : List ℝ :=
  let i1 := genotypes.findIdx (fun g => g.germline = germline)
  let len := 1 + ((genotypes.drop (i1 + 1)).takeWhile
    (fun g => g.germline = germline)).length
  makeRangeSeed genotypes.length i1 len p

/-- Modelled from the spec: `maths::dirichlet_expectation(k, alphas)` =
`α_k / Σ α` (maths.hpp not in the sources). -/
def dirichletExpectation (k : ℕ) (alphas : List ℝ) : ℝ :=
  alphas.getD k 0 / alphas.sum

/-- `is_somatic_expected` (lines 273-278): the expected somatic mixture
weight (last Dirichlet component) exceeds 0.05. -/
def isSomaticExpected (alphas : List ℝ) : Prop :=
  0.05 < dirichletExpectation (alphas.length - 1) alphas

instance isSomaticExpectedDecidable (alphas : List ℝ) :
    Decidable (isSomaticExpected alphas) :=
  Real.decidableLT _ _

/-- `generate_exhaustive_seeds(n)` (lines 286-294). -/
def generateExhaustiveSeeds (n : ℕ) : List (List ℝ) :=
  (List.range n).map fun i => makePointSeed n i 0.9999

/-- `num_weighted_seeds` (lines 296-299): `1 + 4·|S| + 2·[|S| > 1]`. -/
def numWeightedSeeds (samples : List ℕ) : ℕ :=
  1 + 4 * samples.length + 2 * (if 1 < samples.length then 1 else 0)

/-- The per-sample body of `generate_weighted_seeds` (lines 312-326): four
seeds (germline posterior, germline likelihood, demoted posterior, demoted
likelihood) and the combined-likelihood accumulator. -/
def weightedSeedStep (genotypes : List CancerGenotype)
    (genotypeLogPriors : List ℝ) (glm : ℕ → List ℕ → ℝ) (alphas : ℕ → List ℝ)
    (st : List (List ℝ) × List ℝ) (s : ℕ) : List (List ℝ) × List ℝ :=
  let ll := genotypes.map fun g => glm s g.germline
  let dll := genotypes.map fun g => glm s (demote g)
  let combined := if isSomaticExpected (alphas s)
    then List.zipWith (· + ·) dll st.2
    else List.zipWith (· + ·) ll st.2
  (st.1 ++ [computeLogPosteriors genotypeLogPriors ll, normaliseLogs ll,
    computeLogPosteriors genotypeLogPriors dll, normaliseLogs dll], combined)

/-- `generate_weighted_seeds` (lines 301-336): the normalised prior seed,
four seeds per sample, and the two combined multi-sample seeds when
`|S| > 1`. -/
def generateWeightedSeeds (samples : List ℕ)
    (genotypes : List CancerGenotype) (genotypeLogPriors : List ℝ)
    (glm : ℕ → List ℕ → ℝ) (alphas : ℕ → List ℝ) : List (List ℝ) :=
  let st := samples.foldl
    (weightedSeedStep genotypes genotypeLogPriors glm alphas)
    ([normaliseLogs genotypeLogPriors], List.replicate genotypes.length 0)
  if 1 < samples.length then
    st.1 ++ [normaliseLogs (List.zipWith (· + ·) genotypeLogPriors st.2),
      normaliseLogs st.2]
  else st.1

/-- The dominant-somatic-haplotype scan of `generate_targetted_seeds` (lines
406-429): walk the sorted genotype list while the germline matches the top
one, intersect the somatic haplotype sets, and emit a point seed each time
the intersection empties. -/
def domLoop (genotypes : List CancerGenotype) (g0 : List ℕ) :
    List (ℝ × ℕ) → List ℕ → List ℕ → ℕ → List ℕ × ℕ
  | [], _, points, n => (points, n)
  | p :: rest, dominant, points, n =>
    if (genotypes.getD p.2 ⟨[], []⟩).germline ≠ g0 then (points, n)
    else
      let som := (genotypes.getD p.2 ⟨[], []⟩).somatic
      if dominant = [] then domLoop genotypes g0 rest som points n
      else
        let d := dominant.filter fun h => h ∉ som
        if d = [] then
          if n - 1 = 0 then (points ++ [p.2], 0)
          else domLoop genotypes g0 rest d (points ++ [p.2]) (n - 1)
        else domLoop genotypes g0 rest d points n

/-- The fill scan of `generate_targetted_seeds` (lines 430-439): add point
seeds for further genotypes on the top germline not yet selected. -/
def fillLoop (genotypes : List CancerGenotype) (g0 : List ℕ) :
    List (ℝ × ℕ) → List ℕ → ℕ → List ℕ × ℕ
  | [], points, n => (points, n)
  | p :: rest, points, n =>
    if (genotypes.getD p.2 ⟨[], []⟩).germline = g0 ∧ p.2 ∉ points then
      if n - 1 = 0 then (points ++ [p.2], 0)
      else fillLoop genotypes g0 rest (points ++ [p.2]) (n - 1)
    else fillLoop genotypes g0 rest points n

/-- `generate_targetted_seeds` (lines 359-442): point seeds on the
top-likelihood germline subtree and its dominant-somatic-haplotype tail. -/
def generateTargettedSeeds (genotypes : List CancerGenotype)
    (approxLogLikelihoods : List ℝ) (prior : CancerGenotype → ℝ) (n : ℕ)
    (result : List (List ℝ)) : List (List ℝ) :=
  if n = 0 then result
  else
    let result₁ := if genotypes.length ≤ n then
        result ++ (List.range genotypes.length).map
          (fun i => makePointSeed genotypes.length i 0.9999)
      else result
    let sorted := ((List.range genotypes.length).map
        fun i => (approxLogLikelihoods.getD i 0, i)).mergeSort
      fun a b => b.1 < a.1 ∨ (a.1 = b.1 ∧ b.2 ≤ a.2)
    let hd := sorted.headD (0, 0)
    let block := sorted.takeWhile fun q => q.1 = hd.1
    let block₁ := if 1 < block.length then
        block.mergeSort fun a b =>
          prior (genotypes.getD b.2 ⟨[], []⟩) ≤
            prior (genotypes.getD a.2 ⟨[], []⟩)
      else block
    let selected := block₁.map fun q => (genotypes.getD q.2 ⟨[], []⟩).germline
    let result₂ := result₁ ++ (selected.take n).map
      fun g => makeRangeSeedG genotypes g 0.9999
    let n₁ := n - min n selected.length
    if 0 < n₁ ∧ 1 < (genotypes.headD ⟨[], []⟩).somatic.length then
      let st := domLoop genotypes (selected.headD []) sorted [] [] n₁
      let st₁ := if 0 < st.2
        then fillLoop genotypes (selected.headD []) sorted st.1 st.2
        else st
      result₂ ++ st₁.1.map fun i => makePointSeed genotypes.length i 0.9999
    else result₂

/-- `generate_seeds` (lines 444-461). -/
def generateSeeds (samples : List ℕ) (genotypes : List CancerGenotype)
    (genotypeLogPriors : List ℝ) (glm : ℕ → List ℕ → ℝ)
    (alphas : ℕ → List ℝ) (prior : CancerGenotype → ℝ) (maxSeeds : ℕ) :
    List (List ℝ) :=
  if genotypes.length ≤ min maxSeeds (numWeightedSeeds samples) then
    generateExhaustiveSeeds genotypes.length
  else
    let result := generateWeightedSeeds samples genotypes genotypeLogPriors
      glm alphas
    if result.length < maxSeeds then
      generateTargettedSeeds genotypes (result.getLast?.getD []) prior
        (maxSeeds - result.length) result
    else result

/-- Sums over `List.range` as `Finset.range` sums. -/
theorem list_range_map_sum (f : ℕ → ℝ) (n : ℕ) :
    ((List.range n).map f).sum = ∑ j in Finset.range n, f j := by
  simp [Finset.sum, Finset.range_val, Multiset.range, Multiset.map_coe,
    Multiset.sum_coe]

/-- A point seed is a normalised log-distribution. -/
theorem makePointSeed_normalised (n i : ℕ) (hi : i < n) :
    ((makePointSeed n i 0.9999).map Real.exp).sum = 1 := by
  unfold makePointSeed
  by_cases hn : 1 < n
  · rw [if_pos hn]
    have hq : (0 : ℝ) < (1 - 0.9999) / ((n : ℝ) - 1) := by
      have h0 : (1 : ℝ) < (n : ℝ) := by exact_mod_cast hn
      have h1 : (0 : ℝ) < (n : ℝ) - 1 := by linarith
      exact div_pos (by norm_num) h1
    rw [List.map_map]
    have hfun : ∀ j, (Real.exp ∘ fun j =>
        if j = i then Real.log 0.9999
        else Real.log ((1 - 0.9999) / ((n : ℝ) - 1))) j =
        (fun j => if j = i then (0.9999 : ℝ)
          else (1 - 0.9999) / ((n : ℝ) - 1)) j := by
      intro j
      simp only [Function.comp_apply]
      split
      · rw [Real.exp_log (by norm_num)]
      · rw [Real.exp_log hq]
    rw [List.map_congr_left (fun j _ => hfun j), list_range_map_sum]
    have hsplit : ∀ j, (if j = i then (0.9999 : ℝ)
        else (1 - 0.9999) / ((n : ℝ) - 1)) =
        (1 - 0.9999) / ((n : ℝ) - 1) +
          (if j = i then 0.9999 - (1 - 0.9999) / ((n : ℝ) - 1) else 0) := by
      intro j
      split <;> ring
    rw [Finset.sum_congr rfl (fun j _ => hsplit j), Finset.sum_add_distrib,
      Finset.sum_const, Finset.sum_ite_eq' (Finset.range n) i,
      if_pos (Finset.mem_range.mpr hi), Finset.card_range, nsmul_eq_mul]
    have hne : ((n : ℝ) - 1) ≠ 0 := by
      have : (1 : ℝ) < (n : ℝ) := by exact_mod_cast hn
      linarith
    field_simp
    ring
  · rw [if_neg hn]
    interval_cases n
    · omega
    · simp

/-- A point seed concentrates its mass on its index. -/
theorem makePointSeed_concentrated (n i j : ℕ) (hi : i < n) (hj : j < n)
    (hne : j ≠ i) (hn : 1 < n) :
    (makePointSeed n i 0.9999).getD j 0 < (makePointSeed n i 0.9999).getD i 0
    := by
  unfold makePointSeed
  rw [if_pos hn]
  have hn1 : (1 : ℝ) < (n : ℝ) := by exact_mod_cast hn
  have hn2 : (2 : ℝ) ≤ (n : ℝ) := by exact_mod_cast hn
  have hq : (0 : ℝ) < (1 - 0.9999) / ((n : ℝ) - 1) :=
    div_pos (by norm_num) (by linarith)
  have hqlt : (1 - 0.9999) / ((n : ℝ) - 1) < 0.9999 := by
    rw [div_lt_iff₀ (by linarith)]
    nlinarith
  have hgd : ∀ m : ℕ, m < n → ((List.range n).map fun j =>
      if j = i then Real.log 0.9999
      else Real.log ((1 - 0.9999) / ((n : ℝ) - 1))).getD m 0 =
      (if m = i then Real.log 0.9999
        else Real.log ((1 - 0.9999) / ((n : ℝ) - 1))) := by
    intro m hm
    rw [List.getD_eq_getElem?_getD, List.getElem?_map,
      List.getElem?_range hm]
    rfl
  rw [hgd j hj, hgd i hi, if_neg hne, if_pos rfl]
  exact Real.log_lt_log hq hqlt

/-- The weighted seed list grows by exactly four seeds per sample. -/
theorem weightedSeeds_foldl_length (genotypes : List CancerGenotype)
    (genotypeLogPriors : List ℝ) (glm : ℕ → List ℕ → ℝ)
    (alphas : ℕ → List ℝ) (ss : List ℕ) :
    ∀ st : List (List ℝ) × List ℝ,
      (ss.foldl (weightedSeedStep genotypes genotypeLogPriors glm alphas)
        st).1.length = st.1.length + 4 * ss.length := by
  induction ss with
  | nil => intro st; simp
  | cons a t ih =>
    intro st
    rw [List.foldl_cons, ih]
    unfold weightedSeedStep
    simp only [List.length_append, List.length_cons, List.length_nil]
    omega

/-- `generate_weighted_seeds` returns exactly
`1 + 4·|S| + 2·[|S| > 1]` seeds. -/
theorem generateWeightedSeeds_length (samples : List ℕ)
    (genotypes : List CancerGenotype) (genotypeLogPriors : List ℝ)
    (glm : ℕ → List ℕ → ℝ) (alphas : ℕ → List ℝ) :
    (generateWeightedSeeds samples genotypes genotypeLogPriors glm
      alphas).length = numWeightedSeeds samples := by
  simp only [generateWeightedSeeds, numWeightedSeeds]
  by_cases h : 1 < samples.length
  · rw [if_pos h, if_pos h]
    rw [List.length_append,
      weightedSeeds_foldl_length genotypes genotypeLogPriors glm alphas
        samples _]
    simp only [List.length_cons, List.length_nil]
  · rw [if_neg h, if_neg h]
    rw [weightedSeeds_foldl_length genotypes genotypeLogPriors glm alphas
      samples _]
    simp only [List.length_cons, List.length_nil]
    omega

/-- C6.  When `|G| ≤ min(max_seeds, num_weighted_seeds)`, `generate_seeds`
returns the exhaustive point-seed set: exactly `|G|` seeds, the `i`-th a
normalised log-distribution concentrated on genotype `i`.  Otherwise it
returns the weighted seed set of `1 + 4·|S| + 2·[|S|>1]` seeds (prior seed,
four per-sample seeds, two combined seeds when `|S| > 1`), extended by the
targeted point seeds exactly when the weighted seeds number fewer than
`max_seeds`. -/
theorem generateSeeds_spec (samples : List ℕ)
    (genotypes : List CancerGenotype) (genotypeLogPriors : List ℝ)
    (glm : ℕ → List ℕ → ℝ) (alphas : ℕ → List ℝ)
    (prior : CancerGenotype → ℝ) (maxSeeds : ℕ) :
    (genotypes.length ≤ min maxSeeds (numWeightedSeeds samples) →
      generateSeeds samples genotypes genotypeLogPriors glm alphas prior
          maxSeeds = generateExhaustiveSeeds genotypes.length ∧
      (generateSeeds samples genotypes genotypeLogPriors glm alphas prior
          maxSeeds).length = genotypes.length ∧
      (∀ i < genotypes.length,
        (generateSeeds samples genotypes genotypeLogPriors glm alphas prior
          maxSeeds).getD i [] = makePointSeed genotypes.length i 0.9999 ∧
        ((makePointSeed genotypes.length i 0.9999).map Real.exp).sum = 1 ∧
        (∀ j < genotypes.length, j ≠ i → 1 < genotypes.length →
          (makePointSeed genotypes.length i 0.9999).getD j 0 <
            (makePointSeed genotypes.length i 0.9999).getD i 0))) ∧
    (¬ genotypes.length ≤ min maxSeeds (numWeightedSeeds samples) →
      (generateWeightedSeeds samples genotypes genotypeLogPriors glm
        alphas).length = numWeightedSeeds samples ∧
      generateSeeds samples genotypes genotypeLogPriors glm alphas prior
          maxSeeds =
        (if (generateWeightedSeeds samples genotypes genotypeLogPriors glm
            alphas).length < maxSeeds then
          generateTargettedSeeds genotypes
            ((generateWeightedSeeds samples genotypes genotypeLogPriors glm
              alphas).getLast?.getD []) prior
            (maxSeeds - (generateWeightedSeeds samples genotypes
              genotypeLogPriors glm alphas).length)
            (generateWeightedSeeds samples genotypes genotypeLogPriors glm
              alphas)
        else generateWeightedSeeds samples genotypes genotypeLogPriors glm
          alphas)) := by
  constructor
  · intro hcond
    have hgen : generateSeeds samples genotypes genotypeLogPriors glm alphas
        prior maxSeeds = generateExhaustiveSeeds genotypes.length := by
      unfold generateSeeds
      rw [if_pos hcond]
    refine ⟨hgen, ?_, ?_⟩
    · rw [hgen]
      unfold generateExhaustiveSeeds
      simp
    · intro i hi
      refine ⟨?_, makePointSeed_normalised genotypes.length i hi,
        fun j hj hne hn1 =>
          makePointSeed_concentrated genotypes.length i j hi hj hne hn1⟩
      rw [hgen]
      unfold generateExhaustiveSeeds
      rw [List.getD_eq_getElem?_getD, List.getElem?_map,
        List.getElem?_range hi]
      rfl
  · intro hcond
    refine ⟨generateWeightedSeeds_length samples genotypes genotypeLogPriors
      glm alphas, ?_⟩
    unfold generateSeeds
    rw [if_neg hcond]

/-- C6, witness: one sample and one genotype with `max_seeds = 5` falls in
the exhaustive regime (`1 ≤ min 5 5`). -/
theorem generateSeeds_spec_witness :
    (([(⟨[1], [2]⟩ : CancerGenotype)]).length ≤
      min 5 (numWeightedSeeds [0])) ∧
    (generateSeeds [0] [⟨[1], [2]⟩] [0] (fun _ _ => 0) (fun _ => [])
        (fun _ => 0) 5 = generateExhaustiveSeeds 1 ∧
      (generateSeeds [0] [⟨[1], [2]⟩] [0] (fun _ _ => 0) (fun _ => [])
        (fun _ => 0) 5).length = 1 ∧
      (∀ i < 1,
        (generateSeeds [0] [⟨[1], [2]⟩] [0] (fun _ _ => 0) (fun _ => [])
          (fun _ => 0) 5).getD i [] = makePointSeed 1 i 0.9999 ∧
        ((makePointSeed 1 i 0.9999).map Real.exp).sum = 1 ∧
        (∀ j < 1, j ≠ i → 1 < 1 →
          (makePointSeed 1 i 0.9999).getD j 0 <
            (makePointSeed 1 i 0.9999).getD i 0))) := by
  have hcond : ([(⟨[1], [2]⟩ : CancerGenotype)]).length ≤
      min 5 (numWeightedSeeds [0]) := by
    unfold numWeightedSeeds
    simp
  have hmain := (generateSeeds_spec [0] [⟨[1], [2]⟩] [0] (fun _ _ => 0)
    (fun _ => []) (fun _ => 0) 5).1 hcond
  exact ⟨hcond, by simpa using hmain⟩

end

/-! ## Phaser (phaser.cpp)

`Phaser::force_phase` (lines 232-258) partitions over the covered regions of
the candidates, returns the whole haplotype window for haploid or
single-partition inputs, and otherwise runs `force_phase_sample` (lines
198-230) per sample: if the whole partition range scores at least
`min_phase_score` accept one region covering the window, else greedily
shrink from the right (forced acceptance at one partition), each accepted
block contributing the encompassing region of its partitions.

Genotypes are modelled as lists of haplotypes, each haplotype a list of
(region, allele) sites; phred.hpp, mappable_algorithms.hpp and the
genotype splice code are not in the sources and are modelled from the spec
(a `Phred` score is ordered inversely to its error probability, so
`phase_score ≥ min_phase_score` is `errProb ≤ minErr`). -/

/-- A site of a phaser haplotype: a contig region and an allele label. -/
abbrev PSite := (ℕ × ℕ) × ℕ

/-- A phaser haplotype: the list of its sites. -/
abbrev PHaplotype := List PSite

/-- A phaser genotype: the multiset (list) of its haplotypes. -/
abbrev PGenotype := List PHaplotype

/-- Modelled from the spec: `splice<Haplotype>(haplotype, region)` restricts
the haplotype to the alleles contained in the region. -/
def spliceH (r : ℕ × ℕ) (h : PHaplotype) : PHaplotype :=
  h.filter fun s => r.1 ≤ s.1.1 ∧ s.1.2 ≤ r.2

/-- Modelled from the spec: `splice<Haplotype>(genotype, region)`. -/
def spliceG (r : ℕ × ℕ) (g : PGenotype) : PGenotype := g.map (spliceH r)

/-- `are_equal_in_region` (per-region agreement of the spliced genotypes). -/
def equalInRegion (g1 g2 : PGenotype) (r : ℕ × ℕ) : Prop :=
  spliceG r g1 = spliceG r g2

instance equalInRegionDecidable (g1 g2 : PGenotype) (r : ℕ × ℕ) :
    Decidable (equalInRegion g1 g2 r) :=
  inferInstanceAs (Decidable (spliceG r g1 = spliceG r g2))

/-- `PhaseComplementEqual` over a partition range (lines 49-65):
`are_equal_in_region` at every partition. -/
def phaseComplementEqual (parts : List (ℕ × ℕ)) (g1 g2 : PGenotype) : Prop :=
  ∀ r ∈ parts, equalInRegion g1 g2 r

instance phaseComplementEqualDecidable (parts : List (ℕ × ℕ))
    (g1 g2 : PGenotype) : Decidable (phaseComplementEqual parts g1 g2) :=
  inferInstanceAs (Decidable (∀ r ∈ parts, equalInRegion g1 g2 r))

/-- `insert` into the phase-complement set map (lines 83-93), grouping by
`PhaseComplementEqual` against each set's representative. -/
def insertPhaseSet (parts : List (ℕ × ℕ)) (g : PGenotype) :
    List (List PGenotype) → List (List PGenotype)
  | [] => [[g]]
  | s :: rest =>
    if phaseComplementEqual parts (s.headD []) g then (s ++ [g]) :: rest
    else s :: insertPhaseSet parts g rest

/-- `generate_phase_complement_sets` (lines 95-112). -/
def generatePhaseComplementSets (gs : List PGenotype)
    (parts : List (ℕ × ℕ)) : List (List PGenotype) :=
  gs.foldl (fun acc g => insertPhaseSet parts g acc) []

/-- Modelled from the spec: `extract_covered_regions`
(mappable_algorithms.hpp not in the sources): the minimal list of disjoint
regions covering the sorted candidates, merging overlapping regions. -/
def mergeCovered : (ℕ × ℕ) → List (ℕ × ℕ) → List (ℕ × ℕ)
  | cur, [] => [cur]
  | cur, r :: rest =>
    if r.1 ≤ cur.2 then mergeCovered (cur.1, max cur.2 r.2) rest
    else cur :: mergeCovered r rest

/-- `extract_covered_regions(candidates)`. -/
def extractCoveredRegions : List (ℕ × ℕ) → List (ℕ × ℕ)
  | [] => []
  | r :: rest => mergeCovered r rest

/-- `encompassing_region(first_partition, last_partition)` over the
half-open index range `[i, j)` of the partition list: leftmost begin to
rightmost end. -/
def hullSlice (parts : List (ℕ × ℕ)) (i j : ℕ) : ℕ × ℕ :=
  (((List.range (j - i)).map fun m => (parts.getD (i + m) (0, 0)).1).foldl
      min (parts.getD i (0, 0)).1,
   ((List.range (j - i)).map fun m => (parts.getD (i + m) (0, 0)).2).foldl
      max (parts.getD i (0, 0)).2)

/-- The inner shrink loop of `force_phase_sample` (lines 216-228): starting
from `[i, j)`, decrement the right edge until the range is accepted or only
one partition remains (`distance == 1` forces acceptance). -/
def findBlockEnd (accept : ℕ → ℕ → Bool) (i : ℕ) (j : ℕ) : ℕ :=
  if j ≤ i + 1 then i + 1
  else if accept i j then j
  else findBlockEnd accept i (j - 1)
termination_by j
decreasing_by omega

/-- `findBlockEnd` never returns below `i + 1`. -/
theorem findBlockEnd_ge (accept : ℕ → ℕ → Bool) (i : ℕ) :
    ∀ j, i + 1 ≤ findBlockEnd accept i j := by
  intro j
  induction j using Nat.strong_induction_on with
  | _ j ih =>
    unfold findBlockEnd
    split
    · omega
    · split
      · omega
      · exact ih (j - 1) (by omega)

/-- `findBlockEnd` never returns above `max j (i + 1)`. -/
theorem findBlockEnd_le (accept : ℕ → ℕ → Bool) (i : ℕ) :
    ∀ j, findBlockEnd accept i j ≤ max j (i + 1) := by
  intro j
  induction j using Nat.strong_induction_on with
  | _ j ih =>
    unfold findBlockEnd
    split
    · omega
    · split
      · omega
      · have := ih (j - 1) (by omega)
        omega

/-- The outer loop of `force_phase_sample` (lines 216-228) as the list of
accepted partition index blocks `[i, j)`: the first block starts the
shrink from `jstart` (`--last_partition` before the loop gives
`partitions.length - 1`), every later block from the full right edge. -/
def phaseBlocks (accept : ℕ → ℕ → Bool) (n i jstart : ℕ) : List (ℕ × ℕ) :=
  if i < n then
    (i, findBlockEnd accept i jstart) ::
      phaseBlocks accept n (findBlockEnd accept i jstart) n
  else []
termination_by n - i
decreasing_by
  have := findBlockEnd_ge accept i jstart
  omega

/-- `force_phase_sample` (lines 198-230) restricted to its emitted regions:
the whole window when the full-range phase score passes, else the
encompassing regions of the accepted partition blocks. -/
def forcePhaseSampleRegions (window : ℕ × ℕ) (partitions : List (ℕ × ℕ))
    (fullAccept : Bool) (accept : ℕ → ℕ → Bool) : List (ℕ × ℕ) :=
  if fullAccept then [window]
  else (phaseBlocks accept partitions.length 0 (partitions.length - 1)).map
    fun ij => hullSlice partitions ij.1 ij.2

noncomputable section

/-- `marginalise` (lines 114-121): total posterior mass of a phase set. -/
def marginalise (set : List PGenotype) (post : PGenotype → ℝ) : ℝ :=
  (set.map post).sum

/-- `calculate_entropy` (lines 123-132). -/
def calculateEntropy (set : List PGenotype) (post : PGenotype → ℝ) : ℝ :=
  let norm := marginalise set post
  max 0 (-(set.map fun g =>
    post g / norm * Real.logb 2 (post g / norm)).sum)

/-- `maximum_entropy` (lines 134-137): `log2` of the set size. -/
def maximumEntropy (n : ℕ) : ℝ := Real.logb 2 (n : ℝ)

/-- `calculate_relative_entropy` (lines 139-144). -/
def calculateRelativeEntropy (set : List PGenotype)
    (post : PGenotype → ℝ) : ℝ :=
  if set.length < 2 then 1
  else 1 - calculateEntropy set post / maximumEntropy set.length

/-- `calculate_phase_score` for one phase set (lines 146-150). -/
def phaseScoreSet (set : List PGenotype) (post : PGenotype → ℝ) : ℝ :=
  marginalise set post * calculateRelativeEntropy set post

/-- Modelled from the spec: the total phase score (lines 152-162) is a
`Phred` of the probability `max(0, 1 - Σ set scores)`; phred.hpp is not in
the sources, and a `Phred` compares inversely to its error probability, so
we represent the score by that probability. -/
def phaseScoreErrProb (sets : List (List PGenotype))
    (post : PGenotype → ℝ) : ℝ :=
  max 0 (1 - (sets.map fun s => phaseScoreSet s post).sum)

/-- `splice_all` (lines 172-186): the spliced genotypes, first occurrences
kept. -/
def spliceAll (gs : List PGenotype) (r : ℕ × ℕ) : List PGenotype :=
  (gs.map (spliceG r)).dedup

/-- The splice posterior map of `splice_and_marginalise` (lines 172-186):
each spliced genotype accumulates the posteriors of the genotypes splicing
to it. -/
def splicePosteriors (gs : List PGenotype) (post : PGenotype → ℝ)
    (r : ℕ × ℕ) : PGenotype → ℝ :=
  fun sg => ((gs.filter fun g => spliceG r g = sg).map post).sum

/-- The full-range acceptance test of `force_phase_sample` (lines 205-211):
the phase score of the complement sets of the raw genotypes over all
partitions reaches `min_phase_score`. -/
def forcePhaseFullAccept (genotypes : List PGenotype)
    (post : PGenotype → ℝ) (partitions : List (ℕ × ℕ)) (minErr : ℝ) :
    Prop :=
  phaseScoreErrProb (generatePhaseComplementSets genotypes partitions)
    post ≤ minErr

instance forcePhaseFullAcceptDecidable (genotypes : List PGenotype)
    (post : PGenotype → ℝ) (partitions : List (ℕ × ℕ)) (minErr : ℝ) :
    Decidable (forcePhaseFullAccept genotypes post partitions minErr) :=
  Real.decidableLE _ _

/-- The in-loop acceptance test of `force_phase_sample` (lines 217-221):
splice the genotypes to the encompassing region of the block `[i, j)`,
marginalise, and score the complement sets of the splices over the block's
partitions. -/
def forcePhaseAccept (genotypes : List PGenotype) (post : PGenotype → ℝ)
    (partitions : List (ℕ × ℕ)) (minErr : ℝ) (i j : ℕ) : Prop :=
  let cur := hullSlice partitions i j
  phaseScoreErrProb
    (generatePhaseComplementSets (spliceAll genotypes cur)
      ((partitions.drop i).take (j - i)))
    (splicePosteriors genotypes post cur) ≤ minErr

instance forcePhaseAcceptDecidable (genotypes : List PGenotype)
    (post : PGenotype → ℝ) (partitions : List (ℕ × ℕ)) (minErr : ℝ)
    (i j : ℕ) : Decidable (forcePhaseAccept genotypes post partitions
      minErr i j) :=
  Real.decidableLE _ _

/-- `force_phase_sample` (lines 198-230), emitted regions only (the scores
carried alongside each region do not affect which regions are emitted). -/
def forcePhaseSample (window : ℕ × ℕ) (partitions : List (ℕ × ℕ))
    (genotypes : List PGenotype) (post : PGenotype → ℝ) (minErr : ℝ) :
    List (ℕ × ℕ) :=
  forcePhaseSampleRegions window partitions
    (decide (forcePhaseFullAccept genotypes post partitions minErr))
    (fun i j => decide (forcePhaseAccept genotypes post partitions minErr
      i j))

/-- `Phaser::force_phase` (lines 232-258): haploid or single-partition
inputs return one region per sample covering the haplotype window; otherwise
each sample is phased by `force_phase_sample`. -/
def forcePhase (haplotypeRegion : ℕ × ℕ) (samples : List ℕ)
    (genotypes : List PGenotype) (post : ℕ → PGenotype → ℝ)
    (candidates : List (ℕ × ℕ)) (minErr : ℝ) :
    List (ℕ × List (ℕ × ℕ)) :=
  let partitions := extractCoveredRegions candidates
  if (genotypes.headD []).length = 1 ∨ partitions.length = 1 then
    samples.map fun s => (s, [haplotypeRegion])
  else
    samples.map fun s =>
      (s, forcePhaseSample haplotypeRegion partitions genotypes (post s)
        minErr)

end

/-- A left fold of `min` stays at or above any common lower bound. -/
theorem foldl_min_ge (L : ℕ) : ∀ (l : List ℕ) (s : ℕ), L ≤ s →
    (∀ x ∈ l, L ≤ x) → L ≤ l.foldl min s := by
  intro l
  induction l with
  | nil => intro s hs _; exact hs
  | cons a t ih =>
    intro s hs h
    rw [List.foldl_cons]
    exact ih (min s a) (le_min hs (h a (by simp)))
      (fun x hx => h x (by simp [hx]))

/-- A left fold of `max` stays at or below any common upper bound. -/
theorem foldl_max_le (c : ℕ) : ∀ (l : List ℕ) (s : ℕ), s ≤ c →
    (∀ x ∈ l, x ≤ c) → l.foldl max s ≤ c := by
  intro l
  induction l with
  | nil => intro s hs _; exact hs
  | cons a t ih =>
    intro s hs h
    rw [List.foldl_cons]
    exact ih (max s a) (max_le hs (h a (by simp)))
      (fun x hx => h x (by simp [hx]))

/-- Pairwise disjointness of the partitions read at indices. -/
theorem pairwise_getD_le (parts : List (ℕ × ℕ))
    (hp : parts.Pairwise fun a b => a.2 ≤ b.1) (a b : ℕ) (hab : a < b)
    (hb : b < parts.length) :
    (parts.getD a (0, 0)).2 ≤ (parts.getD b (0, 0)).1 := by
  have ha : a < parts.length := lt_trans hab hb
  rw [List.getD_eq_getElem?_getD, List.getElem?_eq_getElem ha,
    List.getD_eq_getElem?_getD, List.getElem?_eq_getElem hb]
  exact List.pairwise_iff_get.mp hp ⟨a, ha⟩ ⟨b, hb⟩ hab

/-- The encompassing region of an earlier partition block ends at or before
the encompassing region of a later one begins. -/
theorem hull_order (parts : List (ℕ × ℕ))
    (hwf : ∀ r ∈ parts, r.1 ≤ r.2)
    (hp : parts.Pairwise fun a b => a.2 ≤ b.1)
    (i j a b : ℕ) (hij : i < j) (hja : j ≤ a) (hab : a < b)
    (hb : b ≤ parts.length) :
    (hullSlice parts i j).2 ≤ (hullSlice parts a b).1 := by
  have ha : a < parts.length := lt_of_lt_of_le hab hb
  have hamem : parts.getD a (0, 0) ∈ parts := by
    rw [List.getD_eq_getElem?_getD, List.getElem?_eq_getElem ha]
    exact List.getElem_mem ha
  unfold hullSlice
  refine le_trans (foldl_max_le ((parts.getD a (0, 0)).1) _ _ ?_ ?_)
    (foldl_min_ge ((parts.getD a (0, 0)).1) _ _ (le_refl _) ?_)
  · exact pairwise_getD_le parts hp i a (by omega) ha
  · intro x hx
    obtain ⟨m, hm, rfl⟩ := List.mem_map.mp hx
    have hmj : i + m < j := by
      have := List.mem_range.mp hm
      omega
    exact pairwise_getD_le parts hp (i + m) a (by omega) ha
  · intro x hx
    obtain ⟨m, hm, rfl⟩ := List.mem_map.mp hx
    have hmb : a + m < b := by
      have := List.mem_range.mp hm
      omega
    rcases Nat.eq_zero_or_pos m with rfl | hmpos
    · simp
    · refine le_trans (le_trans (hwf _ hamem)
        (pairwise_getD_le parts hp a (a + m) (by omega) (by omega))) ?_
      exact le_refl _

/-- Every block of the phase walk lies inside `[i, n]` with a nonempty
index range. -/
theorem phaseBlocks_bounds (accept : ℕ → ℕ → Bool) (n : ℕ) :
    ∀ (k i jstart : ℕ), n - i ≤ k → jstart ≤ n →
      ∀ ab ∈ phaseBlocks accept n i jstart,
        i ≤ ab.1 ∧ ab.1 < ab.2 ∧ ab.2 ≤ n := by
  intro k
  induction k with
  | zero =>
    intro i jstart hk _ ab hab
    unfold phaseBlocks at hab
    rw [if_neg (by omega)] at hab
    exact absurd hab (List.not_mem_nil ab)
  | succ k ih =>
    intro i jstart hk hj ab hab
    unfold phaseBlocks at hab
    by_cases hin : i < n
    · rw [if_pos hin] at hab
      have h1 : i + 1 ≤ findBlockEnd accept i jstart :=
        findBlockEnd_ge accept i jstart
      have h2 : findBlockEnd accept i jstart ≤ max jstart (i + 1) :=
        findBlockEnd_le accept i jstart
      have h3 : findBlockEnd accept i jstart ≤ n := by omega
      rcases List.mem_cons.mp hab with rfl | hab2
      · exact ⟨le_refl _, by omega, h3⟩
      · have := ih (findBlockEnd accept i jstart) n (by omega) (le_refl n)
          ab hab2
        exact ⟨by omega, this.2⟩
    · rw [if_neg hin] at hab
      exact absurd hab (List.not_mem_nil ab)

/-- The encompassing regions of the accepted blocks are ordered left to
right and pairwise non-overlapping. -/
theorem phaseBlocks_hulls_pairwise (parts : List (ℕ × ℕ))
    (hwf : ∀ r ∈ parts, r.1 ≤ r.2)
    (hp : parts.Pairwise fun a b => a.2 ≤ b.1) (accept : ℕ → ℕ → Bool) :
    ∀ (k i jstart : ℕ), parts.length - i ≤ k → jstart ≤ parts.length →
      List.Pairwise (fun r1 r2 => r1.2 ≤ r2.1)
        ((phaseBlocks accept parts.length i jstart).map
          fun ij => hullSlice parts ij.1 ij.2) := by
  intro k
  induction k with
  | zero =>
    intro i jstart hk _
    unfold phaseBlocks
    rw [if_neg (by omega)]
    simp
  | succ k ih =>
    intro i jstart hk hj
    unfold phaseBlocks
    by_cases hin : i < parts.length
    · rw [if_pos hin]
      have h1 : i + 1 ≤ findBlockEnd accept i jstart :=
        findBlockEnd_ge accept i jstart
      have h2 : findBlockEnd accept i jstart ≤ max jstart (i + 1) :=
        findBlockEnd_le accept i jstart
      have h3 : findBlockEnd accept i jstart ≤ parts.length := by omega
      rw [List.map_cons]
      refine List.Pairwise.cons ?_
        (ih (findBlockEnd accept i jstart) parts.length (by omega)
          (le_refl _))
      intro y hy
      obtain ⟨ab, hab, rfl⟩ := List.mem_map.mp hy
      obtain ⟨hja, hab2, hbn⟩ := phaseBlocks_bounds accept parts.length
        (parts.length - findBlockEnd accept i jstart)
        (findBlockEnd accept i jstart) parts.length (le_refl _) (le_refl _)
        ab hab
      exact hull_order parts hwf hp i (findBlockEnd accept i jstart)
        ab.1 ab.2 (by omega) hja hab2 hbn
    · rw [if_neg hin]
      simp

/-- Merging preserves the left edge: every output region of `mergeCovered`
begins at or after the current region's begin. -/
theorem mergeCovered_begin_ge : ∀ (l : List (ℕ × ℕ)) (x : ℕ × ℕ),
    List.Chain' (fun a b => a.1 ≤ b.1) (x :: l) →
    ∀ out ∈ mergeCovered x l, x.1 ≤ out.1 := by
  intro l
  induction l with
  | nil =>
    intro x _ out hout
    rcases List.mem_singleton.mp hout with rfl
    exact le_refl _
  | cons r rest ih =>
    intro x hch out hout
    obtain ⟨hxr, hch1⟩ := List.chain'_cons.mp hch
    unfold mergeCovered at hout
    split at hout
    · have hch2 : List.Chain' (fun a b => a.1 ≤ b.1)
          ((x.1, max x.2 r.2) :: rest) := by
        rw [List.chain'_cons']
        obtain ⟨hr1, hr2⟩ := List.chain'_cons'.mp hch1
        exact ⟨fun b hb => le_trans hxr (hr1 b hb), hr2⟩
      exact ih (x.1, max x.2 r.2) hch2 out hout
    · rcases List.mem_cons.mp hout with rfl | hout2
      · exact le_refl _
      · exact le_trans hxr (ih r hch1 out hout2)

/-- `mergeCovered` of well-formed, begin-sorted regions yields well-formed,
ordered, pairwise-disjoint regions. -/
theorem mergeCovered_spec : ∀ (l : List (ℕ × ℕ)) (x : ℕ × ℕ),
    (∀ r ∈ x :: l, r.1 ≤ r.2) →
    List.Chain' (fun a b => a.1 ≤ b.1) (x :: l) →
    (∀ out ∈ mergeCovered x l, out.1 ≤ out.2) ∧
      (mergeCovered x l).Pairwise (fun a b => a.2 ≤ b.1) := by
  intro l
  induction l with
  | nil =>
    intro x hwf _
    have he : mergeCovered x [] = [x] := rfl
    rw [he]
    refine ⟨?_, by simp⟩
    intro out hout
    rw [List.mem_singleton.mp hout]
    exact hwf x (by simp)
  | cons r rest ih =>
    intro x hwf hch
    obtain ⟨hxr, hch1⟩ := List.chain'_cons.mp hch
    unfold mergeCovered
    split
    · next hle =>
      refine ih (x.1, max x.2 r.2) ?_ ?_
      · intro rr hrr
        rcases List.mem_cons.mp hrr with h | hmem
        · rw [h]
          exact le_trans (hwf x (by simp)) (le_max_left _ _)
        · exact hwf rr (List.mem_cons_of_mem x (List.mem_cons_of_mem r hmem))
      · rw [List.chain'_cons']
        obtain ⟨hr1, hr2⟩ := List.chain'_cons'.mp hch1
        exact ⟨fun b hb => le_trans hxr (hr1 b hb), hr2⟩
    · next hgt =>
      have hrec := ih r (fun rr hrr => hwf rr (List.mem_cons_of_mem x hrr))
        hch1
      refine ⟨?_, ?_⟩
      · intro out hout
        rcases List.mem_cons.mp hout with h | hout2
        · rw [h]
          exact hwf x (by simp)
        · exact hrec.1 out hout2
      · refine List.Pairwise.cons ?_ hrec.2
        intro out hout
        have := mergeCovered_begin_ge rest r hch1 out hout
        omega

/-- `extract_covered_regions` of well-formed, begin-sorted candidates yields
well-formed, ordered, pairwise-disjoint partitions. -/
theorem extractCoveredRegions_spec (candidates : List (ℕ × ℕ))
    (hwf : ∀ r ∈ candidates, r.1 ≤ r.2)
    (hch : List.Chain' (fun a b => a.1 ≤ b.1) candidates) :
    (∀ out ∈ extractCoveredRegions candidates, out.1 ≤ out.2) ∧
      (extractCoveredRegions candidates).Pairwise
        (fun a b => a.2 ≤ b.1) := by
  match candidates with
  | [] => exact ⟨by simp [extractCoveredRegions], by
      simp [extractCoveredRegions]⟩
  | x :: rest => exact mergeCovered_spec rest x hwf hch

/-- C7, amended.  For well-formed, begin-sorted candidate regions, the phase
regions `force_phase` returns for every sample are ordered left to right and
pairwise non-overlapping; when the returned list is the single whole-window
region (the haploid, single-partition and whole-window-accepted paths) the
region lengths trivially sum to the window length, but in split phasing the
regions are the encompassing regions of consecutive candidate partitions and
their lengths can sum to less than the window length. -/
theorem forcePhase_regions_ordered (haplotypeRegion : ℕ × ℕ)
    (samples : List ℕ) (genotypes : List PGenotype)
    (post : ℕ → PGenotype → ℝ) (candidates : List (ℕ × ℕ)) (minErr : ℝ)
    (hwf : ∀ r ∈ candidates, r.1 ≤ r.2)
    (hch : List.Chain' (fun a b => a.1 ≤ b.1) candidates) :
    ∀ sr ∈ forcePhase haplotypeRegion samples genotypes post candidates
      minErr,
      List.Pairwise (fun r1 r2 => r1.2 ≤ r2.1) sr.2 ∧
      (sr.2 = [haplotypeRegion] →
        (sr.2.map fun r => r.2 - r.1).sum =
          haplotypeRegion.2 - haplotypeRegion.1) := by
  intro sr hsr
  refine ⟨?_, fun h => by rw [h]; simp⟩
  obtain ⟨hcwf, hcp⟩ := extractCoveredRegions_spec candidates hwf hch
  simp only [forcePhase] at hsr
  split at hsr
  · obtain ⟨s, _, rfl⟩ := List.mem_map.mp hsr
    simp
  · obtain ⟨s, _, rfl⟩ := List.mem_map.mp hsr
    show List.Pairwise _ (forcePhaseSample _ _ _ _ _)
    unfold forcePhaseSample forcePhaseSampleRegions
    split
    · simp
    · exact phaseBlocks_hulls_pairwise (extractCoveredRegions candidates)
        hcwf hcp _ (extractCoveredRegions candidates).length 0
        ((extractCoveredRegions candidates).length - 1) (by omega)
        (by omega)

/-- A diploid genotype over two heterozygous-free haplotypes carrying the
two candidate alleles. -/
def pg1 : PGenotype :=
  [[((10, 11), 1), ((50, 51), 1)], [((10, 11), 1), ((50, 51), 1)]]

/-- A second diploid genotype, equal to `pg1` at both candidate regions but
carrying an extra off-candidate site at `(70, 71)`. -/
def pg2 : PGenotype :=
  [[((10, 11), 1), ((50, 51), 1), ((70, 71), 1)],
   [((10, 11), 1), ((50, 51), 1), ((70, 71), 1)]]

/-- Posterior mass `1/2` on each of `pg1` and `pg2`. -/
noncomputable def ppost : PGenotype → ℝ :=
  fun g => if g = pg1 ∨ g = pg2 then 1 / 2 else 0

/-- C7, witness for the amended ordering theorem: a single candidate takes
the single-partition path, returning the whole window per sample. -/
theorem forcePhase_regions_ordered_witness :
    ((∀ r ∈ [((10 : ℕ), (11 : ℕ))], r.1 ≤ r.2) ∧
      List.Chain' (fun a b : ℕ × ℕ => a.1 ≤ b.1) [((10 : ℕ), (11 : ℕ))]) ∧
    (∀ sr ∈ forcePhase (0, 100) [0] [pg1, pg2] (fun _ => ppost)
      [(10, 11)] 0,
      List.Pairwise (fun r1 r2 : ℕ × ℕ => r1.2 ≤ r2.1) sr.2 ∧
      (sr.2 = [((0 : ℕ), (100 : ℕ))] →
        (sr.2.map fun r => r.2 - r.1).sum = 100 - 0)) :=
  ⟨⟨by decide, by simp⟩,
    forcePhase_regions_ordered (0, 100) [0] [pg1, pg2] (fun _ => ppost)
      [(10, 11)] 0 (by decide) (by simp)⟩

/-- C7, counterexample.  The claim says the phase-region lengths sum to the
haplotype window length.  With window `[0, 100)`, candidates `[10, 11)` and
`[50, 51)` and two diploid genotypes that agree at both candidates (equal
posterior mass `1/2` each), the full-range phase score vanishes (one
complement class of two equally likely genotypes has full entropy), so the
sample is split into the two forced single-partition blocks: the returned
regions are `[10, 11)` and `[50, 51)` with lengths summing to `2`, not to
the window length `100`. -/
theorem forcePhase_length_sum_counterexample :
    forcePhase (0, 100) [0] [pg1, pg2] (fun _ => ppost)
        [(10, 11), (50, 51)] 0 =
      [(0, [(10, 11), (50, 51)])] ∧
    (([((10 : ℕ), (11 : ℕ)), (50, 51)]).map fun r => r.2 - r.1).sum = 2 ∧
    (100 : ℕ) - 0 = 100 ∧ (2 : ℕ) ≠ 100 := by
  have hppost1 : ppost pg1 = 1 / 2 := by
    unfold ppost
    rw [if_pos (Or.inl rfl)]
  have hppost2 : ppost pg2 = 1 / 2 := by
    unfold ppost
    rw [if_pos (Or.inr rfl)]
  have hsets : generatePhaseComplementSets [pg1, pg2] [(10, 11), (50, 51)] =
      [[pg1, pg2]] := by rfl
  have hmarg : marginalise [pg1, pg2] ppost = 1 := by
    unfold marginalise
    simp only [List.map_cons, List.map_nil, List.sum_cons, List.sum_nil,
      hppost1, hppost2]
    norm_num
  have hlogb : Real.logb 2 ((1 : ℝ) / 2) = -1 := by
    rw [one_div, Real.logb_inv, Real.logb_self_eq_one (by norm_num)]
  have hent : calculateEntropy [pg1, pg2] ppost = 1 := by
    unfold calculateEntropy
    rw [hmarg]
    simp only [List.map_cons, List.map_nil, List.sum_cons, List.sum_nil,
      hppost1, hppost2, div_one]
    rw [hlogb]
    norm_num
  have hrel : calculateRelativeEntropy [pg1, pg2] ppost = 0 := by
    unfold calculateRelativeEntropy
    rw [if_neg (by norm_num)]
    unfold maximumEntropy
    rw [hent]
    norm_num
  have herr : phaseScoreErrProb [[pg1, pg2]] ppost = 1 := by
    unfold phaseScoreErrProb phaseScoreSet
    rw [List.map_cons, List.map_nil, List.sum_cons, List.sum_nil,
      hmarg, hrel]
    norm_num
  have hfa : ¬ forcePhaseFullAccept [pg1, pg2] ppost [(10, 11), (50, 51)]
      0 := by
    unfold forcePhaseFullAccept
    rw [hsets, herr]
    norm_num
  have hfb1 : findBlockEnd
      (fun i j => decide (forcePhaseAccept [pg1, pg2] ppost
        [(10, 11), (50, 51)] 0 i j)) 0 1 = 1 := by
    unfold findBlockEnd
    norm_num
  have hfb2 : findBlockEnd
      (fun i j => decide (forcePhaseAccept [pg1, pg2] ppost
        [(10, 11), (50, 51)] 0 i j)) 1 2 = 2 := by
    unfold findBlockEnd
    norm_num
  have hpb2 : phaseBlocks
      (fun i j => decide (forcePhaseAccept [pg1, pg2] ppost
        [(10, 11), (50, 51)] 0 i j)) 2 2 2 = [] := by
    unfold phaseBlocks
    norm_num
  have hpb1 : phaseBlocks
      (fun i j => decide (forcePhaseAccept [pg1, pg2] ppost
        [(10, 11), (50, 51)] 0 i j)) 2 1 2 = [(1, 2)] := by
    unfold phaseBlocks
    rw [if_pos (by norm_num), hfb2, hpb2]
  have hpb0 : phaseBlocks
      (fun i j => decide (forcePhaseAccept [pg1, pg2] ppost
        [(10, 11), (50, 51)] 0 i j)) 2 0 1 = [(0, 1), (1, 2)] := by
    unfold phaseBlocks
    rw [if_pos (by norm_num), hfb1, hpb1]
  have hsample : forcePhaseSample (0, 100) [(10, 11), (50, 51)]
      [pg1, pg2] ppost 0 = [(10, 11), (50, 51)] := by
    unfold forcePhaseSample forcePhaseSampleRegions
    rw [decide_eq_false hfa]
    simp only [Bool.false_eq_true, if_false]
    have hparts : ([((10 : ℕ), (11 : ℕ)), (50, 51)]).length = 2 := rfl
    rw [hparts]
    norm_num
    rw [hpb0]
    rfl
  refine ⟨?_, by norm_num, by norm_num, by norm_num⟩
  show (if ([pg1, pg2].headD []).length = 1 ∨
      (extractCoveredRegions [(10, 11), (50, 51)]).length = 1 then
      ([(0 : ℕ)]).map fun s => (s, [((0 : ℕ), (100 : ℕ))])
    else ([(0 : ℕ)]).map fun s =>
      (s, forcePhaseSample (0, 100) (extractCoveredRegions
        [(10, 11), (50, 51)]) [pg1, pg2] ((fun _ => ppost) s) 0)) =
    [(0, [(10, 11), (50, 51)])]
  rw [if_neg (by decide)]
  have hcov : extractCoveredRegions [((10 : ℕ), (11 : ℕ)), (50, 51)] =
      [(10, 11), (50, 51)] := rfl
  rw [List.map_cons, List.map_nil, hcov]
  rw [hsample]

end Octopus
